import Mathlib

/-!
Verification of the event-log-parser core: a shallow embedding of the cursor
and field grammar of src/parser/src/parser.rs, the reference-table decoder of
src/parser/src/references.rs, and the event decoder and chunked-stream driver
of src/parser/src/events.rs, together with theorems settling the frozen
claims about them.

Bytes are modelled as `Nat` (concrete inputs stay below 256); machine-integer
wrap-around is made explicit (`% 2 ^ 64` for `usize`, `% 256` for `u8`,
`% 2 ^ 32` for `u32`).  Looping functions carry an explicit fuel argument so
that every definition is structurally recursive and kernel-computable; fuel
`window length + 1` is always enough because every loop iteration consumes at
least one byte.
-/

set_option maxRecDepth 100000

namespace EventLog

/-- Error outcomes of a parse step.  `endOfInput` models `None` /
`ParseError::End` (need more bytes), `invalidFormat` models
`ParseError::InvalidFormat`.  `fatalData n` models a `panic!` (process
abort) in src/parser/src/parser.rs: `fatalData 1` is `panic!("Invalid data 1:
...")` in `parse_str`, `fatalData 2` is `panic!("Invalid data 2: ...")` in
`parse_object`, `fatalData 0` the `current()` before-first-`next` panic.
`outOfFuel` is the embedding's recursion bound, never reached when the fuel
is at least the window length plus one. -/
inductive ParseError where
  | endOfInput
  | invalidFormat
  | fatalData (n : Nat)
  | outOfFuel
deriving DecidableEq, Repr

/-- Cursor over one immutable byte window: `input` is the window, `pos` the
offset from its start.  Models the raw pointers `(source, ptr, end)` of
`Parser` in src/parser/src/parser.rs; `position()` is `pos`. -/
structure Parser where
  input : List Nat
  pos : Nat
deriving DecidableEq, Repr

/-- Outcome of a parser step together with the cursor afterwards (Rust
`&mut self` keeps the advanced cursor also when an error is returned). -/
abbrev PResult (α : Type) := Except ParseError α × Parser

/-- Byte range `[a, b)` of `l`: the borrowed slice
`from_raw_parts(base + a, b - a)`. -/
def slice (l : List Nat) (a b : Nat) : List Nat := (l.drop a).take (b - a)

/-- `Parser::next`: one byte or EndOfInput. -/
def Parser.next (s : Parser) : PResult Nat :=
  if s.pos < s.input.length then
    (Except.ok (s.input.getD s.pos 0), ⟨s.input, s.pos + 1⟩)
  else (Except.error ParseError.endOfInput, s)

/-- `Parser::skip`: advance `count` bytes, fail (cursor unmoved) if that
passes the window end. -/
def Parser.skip (s : Parser) (count : Nat) : PResult Unit :=
  if s.pos + count ≤ s.input.length then (Except.ok (), ⟨s.input, s.pos + count⟩)
  else (Except.error ParseError.endOfInput, s)

/-- Index of the first byte satisfying `pred` (the memchr scan). -/
def scanIdx (pred : Nat → Bool) : List Nat → Option Nat
  | [] => none
  | b :: t => if pred b then some 0 else (scanIdx pred t).map (· + 1)

/-- `Parser::skip_to`: advance just past the first occurrence of `ch`
(memchr); on absence fail with the cursor unmoved. -/
def Parser.skipTo (s : Parser) (ch : Nat) : PResult Unit :=
  match scanIdx (fun b => b == ch) (s.input.drop s.pos) with
  | some k => (Except.ok (), ⟨s.input, s.pos + k + 1⟩)
  | none => (Except.error ParseError.endOfInput, s)

/-- `Parser::skip_to2`: advance just past the first occurrence of `c1` or
`c2` (the earlier of the two memchr hits). -/
def Parser.skipTo2 (s : Parser) (c1 c2 : Nat) : PResult Unit :=
  match scanIdx (fun b => b == c1 || b == c2) (s.input.drop s.pos) with
  | some k => (Except.ok (), ⟨s.input, s.pos + k + 1⟩)
  | none => (Except.error ParseError.endOfInput, s)

/-- `Parser::current`: the last byte returned by `next`; panics when called
before any advance (`fatalData 0`). -/
def Parser.current (s : Parser) : PResult Nat :=
  if s.pos = 0 then (Except.error (ParseError.fatalData 0), s)
  else (Except.ok (s.input.getD (s.pos - 1) 0), s)

/-- `Parser::peek`: the next byte without advancing. -/
def Parser.peek (s : Parser) : PResult Nat :=
  if s.pos < s.input.length then (Except.ok (s.input.getD s.pos 0), s)
  else (Except.error ParseError.endOfInput, s)

/-- Loop of `Parser::parse_usize`: fold every byte before the `,`/`}`
terminator into the accumulator as `byte - b'0'` (`u8` wrap-around, hence
`(c + 208) % 256`), with `usize` wrap-around on the accumulator. -/
def parseUsizeLoop : Nat → Nat → Parser → PResult Nat
  | 0, _, s => (Except.error ParseError.outOfFuel, s)
  | f + 1, acc, s =>
    match s.next with
    | (Except.ok c, s') =>
      if c = 44 ∨ c = 125 then (Except.ok acc, s')
      else parseUsizeLoop f ((acc * 10 + (c + 208) % 256) % 18446744073709551616) s'
    | (Except.error e, s') => (Except.error e, s')

/-- `Parser::parse_usize`. -/
def Parser.parse_usize (f : Nat) (s : Parser) : PResult Nat := parseUsizeLoop f 0 s

/-- `Parser::parse_raw`: the byte range up to (excluding) the next `,`/`}`,
terminator consumed. -/
def Parser.parse_raw (s : Parser) : PResult (List Nat) :=
  match s.skipTo2 44 125 with
  | (Except.ok _, s') => (Except.ok (slice s.input s.pos (s'.pos - 1)), s')
  | (Except.error e, s') => (Except.error e, s')

def isHexDigit (b : Nat) : Bool :=
  decide ((48 ≤ b ∧ b ≤ 57) ∨ (97 ≤ b ∧ b ≤ 102) ∨ (65 ≤ b ∧ b ≤ 70))

/-- Well-formed 36-byte hyphenated-hex uuid text. -/
def isValidUuid (l : List Nat) : Bool :=
  l.length == 36 && (List.range 36).all fun i =>
    if i = 8 ∨ i = 13 ∨ i = 18 ∨ i = 23 then l.getD i 0 == 45
    else isHexDigit (l.getD i 0)

/-- Modelled from the spec: `parseUuid` of the `ParseResult`-returning
parser.rs revision that src/parser/src/references.rs imports (that revision
is not under src/; the parser.rs under src/ instead calls
`Uuid::from_str(..).unwrap()`, an abort on malformed text).  A uuid value is
kept as its raw 36 bytes; per the spec it "fails with InvalidFormat if it is
not 36 well-formed hyphenated hex characters". -/
def Parser.parse_uuid (s : Parser) : PResult (List Nat) :=
  match s.parse_raw with
  | (Except.ok raw, s') =>
    if isValidUuid raw then (Except.ok raw, s')
    else (Except.error ParseError.invalidFormat, s')
  | (Except.error e, s') => (Except.error e, s')

/-- `str::replace(r#""""#, r#"""#)`: collapse each doubled quote (byte 34)
into a single one, scanning left to right. -/
def replaceQuotes : List Nat → List Nat
  | 34 :: 34 :: t => 34 :: replaceQuotes t
  | a :: t => a :: replaceQuotes t
  | [] => []

/-- Does the byte list contain two adjacent quote bytes? -/
def hasDoubled : List Nat → Bool
  | a :: b :: t => (a == 34 && b == 34) || hasDoubled (b :: t)
  | _ => false

/-- `LogStr`: borrowed quoted-string content plus the lazily-applied
"contains doubled quotes" flag. -/
structure LogStr where
  s : List Nat
  need_replace_quotes : Bool
deriving DecidableEq, Repr

/-- `LogStr::str`: unescape only when the flag is set. -/
def LogStr.str (ls : LogStr) : List Nat :=
  if ls.need_replace_quotes then replaceQuotes ls.s else ls.s

/-- Loop of `parse_str`: scan to the next quote, look at the byte after it;
`,`/`}` ends the string, another quote sets the unescape flag, anything else
continues the scan. -/
def parseStrLoop : Nat → Bool → Parser → PResult Bool
  | 0, _, s => (Except.error ParseError.outOfFuel, s)
  | f + 1, flag, s =>
    match s.skipTo 34 with
    | (Except.ok _, s1) =>
      match s1.next with
      | (Except.ok c, s2) =>
        if c = 44 ∨ c = 125 then (Except.ok flag, s2)
        else if c = 34 then parseStrLoop f true s2
        else parseStrLoop f flag s2
      | (Except.error e, s2) => (Except.error e, s2)
    | (Except.error e, s1) => (Except.error e, s1)

/-- `parse_str`, parameterized by the error used when the field does not
start with a quote (`fatalData 1` in the parser.rs under src/, InvalidFormat
in the `ParseResult` revision).  The returned content is the byte range from
just after the opening quote to just before the closing quote + terminator
pair. -/
def parseStrWith (eBad : ParseError) (f : Nat) (s : Parser) : PResult LogStr :=
  match s.next with
  | (Except.error e, s') => (Except.error e, s')
  | (Except.ok c, s') =>
    if c = 34 then
      match parseStrLoop f false s' with
      | (Except.ok flag, s2) => (Except.ok ⟨slice s.input s'.pos (s2.pos - 2), flag⟩, s2)
      | (Except.error e, s2) => (Except.error e, s2)
    else (Except.error eBad, s')

/-- `Parser::parse_str` as in src/parser/src/parser.rs: aborts
(`panic!("Invalid data 1: ...")`) on a field not starting with `"`. -/
def Parser.parse_str (f : Nat) (s : Parser) : PResult LogStr :=
  parseStrWith (ParseError.fatalData 1) f s

/-- Modelled from the spec: `parse_str` of the `ParseResult`-returning
parser.rs revision imported by events.rs/references.rs (not under src/),
which "fails InvalidFormat" on a field not starting with `"`. -/
def Parser.parse_str_r (f : Nat) (s : Parser) : PResult LogStr :=
  parseStrWith ParseError.invalidFormat f s

/-- The seek loop `while self.next()? != b'{' {}` shared by `parse_object`
and both record decoders: consume through the first `{`; when none remains
the loop has consumed the whole window and fails EndOfInput. -/
def seekBrace (s : Parser) : PResult Unit :=
  match scanIdx (fun b => b == 123) (s.input.drop s.pos) with
  | some k => (Except.ok (), ⟨s.input, s.pos + k + 1⟩)
  | none => (Except.error ParseError.endOfInput, ⟨s.input, s.input.length⟩)

/-- Epilogue of `parse_object` after the closing `}`: one `,`/`}` terminator
must follow, optionally preceded by a CR+LF pair; `eBad` is the error on any
other byte (`fatalData 2` in the parser.rs under src/, InvalidFormat in the
`ParseResult` revision). -/
def objEpilogue (eBad : ParseError) (s : Parser) : PResult Unit :=
  match s.next with
  | (Except.error e, s1) => (Except.error e, s1)
  | (Except.ok last, s1) =>
    if last = 13 then
      match s1.skip 1 with
      | (Except.error e, s2) => (Except.error e, s2)
      | (Except.ok _, s2) =>
        match s2.next with
        | (Except.error e, s3) => (Except.error e, s3)
        | (Except.ok last2, s3) =>
          if last2 = 44 ∨ last2 = 125 then (Except.ok (), s3)
          else (Except.error eBad, s3)
    else if last = 44 ∨ last = 125 then (Except.ok (), s1)
    else (Except.error eBad, s1)

/-- Core of `parse_object`.  Mode `true` is a full `parse_object` call
(seek `{`, field loop, terminator epilogue, return value discarded — as at
the one recursive call site); mode `false` is the field loop: dispatch on
the peeked byte (`"` quoted string, `{` nested object, CR skip 2, otherwise
raw field) until the last consumed byte is `}`. -/
def parseObjCore (eStr eObj : ParseError) : Nat → Bool → Parser → PResult Unit
  | 0, _, s => (Except.error ParseError.outOfFuel, s)
  | f + 1, true, s =>
    match seekBrace s with
    | (Except.error e, s1) => (Except.error e, s1)
    | (Except.ok _, s1) =>
      match parseObjCore eStr eObj f false s1 with
      | (Except.error e, s2) => (Except.error e, s2)
      | (Except.ok _, s2) => objEpilogue eObj s2
  | f + 1, false, s =>
    match s.peek with
    | (Except.error e, s1) => (Except.error e, s1)
    | (Except.ok c, s1) =>
      let step : PResult Unit :=
        if c = 34 then
          match parseStrWith eStr (f + 1) s1 with
          | (Except.ok _, t) => (Except.ok (), t)
          | (Except.error e, t) => (Except.error e, t)
        else if c = 123 then parseObjCore eStr eObj f true s1
        else if c = 13 then s1.skip 2
        else
          match s1.parse_raw with
          | (Except.ok _, t) => (Except.ok (), t)
          | (Except.error e, t) => (Except.error e, t)
      match step with
      | (Except.error e, s2) => (Except.error e, s2)
      | (Except.ok _, s2) =>
        match s2.current with
        | (Except.error e, s3) => (Except.error e, s3)
        | (Except.ok b, s3) =>
          if b = 125 then (Except.ok (), s3)
          else parseObjCore eStr eObj f false s3

/-- `parse_object` body shared by the two revisions: seek `{`, remember its
index, run the field loop and the epilogue, return the byte range from the
`{` to just before the consumed terminator. -/
def parseObjectWith (eStr eObj : ParseError) (f : Nat) (s : Parser) : PResult (List Nat) :=
  match seekBrace s with
  | (Except.error e, s1) => (Except.error e, s1)
  | (Except.ok _, s1) =>
    match parseObjCore eStr eObj f false s1 with
    | (Except.error e, s2) => (Except.error e, s2)
    | (Except.ok _, s2) =>
      match objEpilogue eObj s2 with
      | (Except.error e, s3) => (Except.error e, s3)
      | (Except.ok _, s3) => (Except.ok (slice s3.input (s1.pos - 1) (s3.pos - 1)), s3)

/-- `Parser::parse_object` as in src/parser/src/parser.rs: aborts
(`panic!("Invalid data 2: ...")`) on a terminator that is neither `,` nor
`}`. -/
def Parser.parse_object (f : Nat) (s : Parser) : PResult (List Nat) :=
  parseObjectWith (ParseError.fatalData 1) (ParseError.fatalData 2) f s

/-- Modelled from the spec: `parse_object` of the `ParseResult`-returning
parser.rs revision imported by events.rs/references.rs (not under src/),
failing InvalidFormat instead of aborting. -/
def Parser.parse_object_r (f : Nat) (s : Parser) : PResult (List Nat) :=
  parseObjectWith ParseError.invalidFormat ParseError.invalidFormat f s

/-- `add_ref` from `References::parser_record` in
src/parser/src/references.rs: dense insertion at index `num` — overwrite
below the length, push at the length, pad with defaults then push above
it. -/
def add_ref {α : Type} (dflt : α) (vec : List α) (value : α) (num : Nat) : List α :=
  if num < vec.length then vec.set num value
  else if num = vec.length then vec ++ [value]
  else vec ++ List.replicate (num - vec.length) dflt ++ [value]

theorem add_ref_length {α : Type} (d : α) (vec : List α) (v : α) (n : Nat) :
    (add_ref d vec v n).length = max vec.length (n + 1) := by
  unfold add_ref
  split_ifs with h1 h2
  · simp only [List.length_set]
    omega
  · simp only [List.length_append, List.length_cons, List.length_nil]
    omega
  · simp only [List.length_append, List.length_replicate, List.length_cons, List.length_nil]
    omega

theorem add_ref_getElem?_self {α : Type} (d : α) (vec : List α) (v : α) (n : Nat) :
    (add_ref d vec v n)[n]? = some v := by
  unfold add_ref
  split_ifs with h1 h2
  · exact List.getElem?_set_self h1
  · subst h2
    exact List.getElem?_concat_length vec v
  · rw [show vec ++ List.replicate (n - vec.length) d ++ [v] =
      (vec ++ List.replicate (n - vec.length) d) ++ [v] from rfl]
    have hlen : (vec ++ List.replicate (n - vec.length) d).length = n := by
      simp only [List.length_append, List.length_replicate]
      omega
    rw [List.getElem?_append_right (by omega), hlen]
    simp

theorem add_ref_getElem?_gap {α : Type} (d : α) (vec : List α) (v : α) (n i : Nat)
    (hL : vec.length ≤ i) (hi : i < n) : (add_ref d vec v n)[i]? = some d := by
  unfold add_ref
  split_ifs with h1 h2
  · omega
  · omega
  · have hlen : (vec ++ List.replicate (n - vec.length) d).length = n := by
      simp only [List.length_append, List.length_replicate]
      omega
    rw [show vec ++ List.replicate (n - vec.length) d ++ [v] =
      (vec ++ List.replicate (n - vec.length) d) ++ [v] from rfl]
    rw [List.getElem?_append_left (by omega)]
    rw [List.getElem?_append_right hL, List.getElem?_replicate]
    simp only [List.length_replicate] at hlen ⊢
    rw [if_pos (by omega)]

theorem add_ref_getElem?_frame {α : Type} (d : α) (vec : List α) (v : α) (n i : Nat)
    (hi : i < vec.length) (hne : i ≠ n) : (add_ref d vec v n)[i]? = vec[i]? := by
  unfold add_ref
  split_ifs with h1 h2
  · exact List.getElem?_set_ne (fun h => hne h.symm)
  · rw [List.getElem?_append_left hi]
  · rw [show vec ++ List.replicate (n - vec.length) d ++ [v] =
      (vec ++ List.replicate (n - vec.length) d) ++ [v] from rfl]
    rw [List.getElem?_append_left (by simp only [List.length_append, List.length_replicate]; omega)]
    rw [List.getElem?_append_left hi]

/-- C1: dense-table insertion.  For a table of length `L`: inserting `v` at
`k` with `L ≤ k` yields a table of length `k + 1` whose indices in `[L, k)`
hold the default and whose index `k` holds `v`; inserting at `k < L`
overwrites index `k` with `v` without changing the length. -/
theorem add_ref_dense_insertion {α : Type} (d : α) (vec : List α) (v : α) (k : Nat) :
    (vec.length ≤ k →
      (add_ref d vec v k).length = k + 1 ∧
      (∀ i, vec.length ≤ i → i < k → (add_ref d vec v k)[i]? = some d) ∧
      (add_ref d vec v k)[k]? = some v) ∧
    (k < vec.length →
      (add_ref d vec v k).length = vec.length ∧
      (add_ref d vec v k)[k]? = some v) := by
  constructor
  · intro hLk
    refine ⟨?_, fun i h1 h2 => add_ref_getElem?_gap d vec v k i h1 h2,
      add_ref_getElem?_self d vec v k⟩
    rw [add_ref_length]
    omega
  · intro hkL
    refine ⟨?_, add_ref_getElem?_self d vec v k⟩
    rw [add_ref_length]
    omega

/-- Witness for C1 at a concrete table: inserting 7 at index 3 into `[5]`
pads with the default 0, and inserting 9 at index 0 of the result
overwrites in place. -/
theorem add_ref_dense_insertion_witness :
    ((add_ref 0 [5] 7 3).length = 4 ∧ (add_ref 0 [5] 7 3)[1]? = some 0 ∧
      (add_ref 0 [5] 7 3)[3]? = some 7) ∧
    ((add_ref 0 (add_ref 0 [5] 7 3) 9 0).length = 4 ∧
      (add_ref 0 (add_ref 0 [5] 7 3) 9 0)[0]? = some 9) := by
  have h1 := (add_ref_dense_insertion 0 [5] 7 3).1 (by decide)
  have h2 := (add_ref_dense_insertion 0 (add_ref 0 [5] 7 3) 9 0).2 (by decide)
  exact ⟨⟨h1.1, h1.2.1 1 (by decide) (by decide), h1.2.2⟩, by rw [h2.1]; decide, h2.2⟩

theorem getD_of_drop {l : List Nat} {p b : Nat} {t : List Nat} (h : l.drop p = b :: t) :
    l.getD p 0 = b := by
  have h0 : l[p]? = some b := by
    have h1 := List.getElem?_drop l p 0
    rw [h] at h1
    simpa using h1.symm
  rw [List.getD_eq_getElem?_getD, h0]
  rfl

theorem drop_succ_of_drop {l : List Nat} {p b : Nat} {t : List Nat} (h : l.drop p = b :: t) :
    l.drop (p + 1) = t := by
  have h2 := List.drop_drop 1 p l
  rw [← h2, h]
  rfl

theorem lt_length_of_drop {l : List Nat} {p b : Nat} {t : List Nat} (h : l.drop p = b :: t) :
    p < l.length := by
  have h2 := congrArg List.length h
  rw [List.length_drop] at h2
  simp only [List.length_cons] at h2
  omega

theorem next_cons {input : List Nat} {p b : Nat} {t : List Nat} (h : input.drop p = b :: t) :
    Parser.next ⟨input, p⟩ = (Except.ok b, ⟨input, p + 1⟩) := by
  unfold Parser.next
  rw [if_pos (lt_length_of_drop h)]
  dsimp only
  rw [getD_of_drop h]

theorem next_nil {input : List Nat} {p : Nat} (h : input.drop p = []) :
    Parser.next ⟨input, p⟩ = (Except.error ParseError.endOfInput, ⟨input, p⟩) := by
  have h2 := congrArg List.length h
  rw [List.length_drop] at h2
  simp only [List.length_nil] at h2
  unfold Parser.next
  rw [if_neg (by dsimp only; omega)]

/-- C2 (code-bug evidence): the parser.rs under src/ escalates bad data to a
process abort instead of returning InvalidFormat — `parse_str` on a field
whose first byte is `x` (not `"`) hits `panic!("Invalid data 1: ...")`, and
`parse_object` on `{1}x` (terminator neither `,` nor `}`) hits
`panic!("Invalid data 2: ...")` — while the `ParseResult`-returning revision
of the same functions, the one its in-crate callers require
(events.rs/references.rs match on `ParseError::InvalidFormat`), fails with
InvalidFormat at the same inputs. -/
theorem parser_src_aborts_on_invalid :
    Parser.parse_str 5 ⟨[120, 44], 0⟩ =
      (Except.error (ParseError.fatalData 1), ⟨[120, 44], 1⟩) ∧
    Parser.parse_object 8 ⟨[123, 49, 125, 120], 0⟩ =
      (Except.error (ParseError.fatalData 2), ⟨[123, 49, 125, 120], 4⟩) ∧
    Parser.parse_str_r 5 ⟨[120, 44], 0⟩ =
      (Except.error ParseError.invalidFormat, ⟨[120, 44], 1⟩) ∧
    Parser.parse_object_r 8 ⟨[123, 49, 125, 120], 0⟩ =
      (Except.error ParseError.invalidFormat, ⟨[123, 49, 125, 120], 4⟩) :=
  ⟨rfl, rfl, rfl, rfl⟩

/-- The spec's example input `   {1,2,3,"123",{1,"N"}}, 321` as bytes. -/
def exampleObjInput : List Nat :=
  [32, 32, 32, 123, 49, 44, 50, 44, 51, 44, 34, 49, 50, 51, 34, 44, 123, 49, 44,
   34, 78, 34, 125, 125, 44, 32, 51, 50, 49]

/-- The literal object text `{1,2,3,"123",{1,"N"}}` as bytes. -/
def exampleObjText : List Nat :=
  [123, 49, 44, 50, 44, 51, 44, 34, 49, 50, 51, 34, 44, 123, 49, 44, 34, 78, 34,
   125, 125]

/-- C5 counterexample: on the object `{1}` followed by the grammar's optional
CR+LF and then the `,` terminator, `parse_object` returns the five bytes
`{1}` + CR + LF — the trailing CR+LF pair that precedes the terminator is
part of the returned range — not the three bytes ending at the matching
`}` that the claim describes. -/
theorem parse_object_range_counterexample :
    (Parser.parse_object 10 ⟨[123, 49, 125, 13, 10, 44], 0⟩).1 =
      Except.ok [123, 49, 125, 13, 10] ∧
    [123, 49, 125, 13, 10] ≠ [123, 49, 125] :=
  ⟨rfl, by decide⟩

/-- Decimal value of a digit-byte list, most significant first. -/
def foldDigits (ds : List Nat) : Nat := ds.foldl (fun a b => a * 10 + (b - 48)) 0

theorem parseUsizeLoop_run :
    ∀ (ds : List Nat) (acc : Nat) (input : List Nat) (p t : Nat) (rest : List Nat) (f : Nat),
      input.drop p = ds ++ t :: rest → (∀ b ∈ ds, ¬(b = 44 ∨ b = 125)) →
      (t = 44 ∨ t = 125) → ds.length < f →
      parseUsizeLoop f acc ⟨input, p⟩ =
        (Except.ok (ds.foldl
            (fun a b => (a * 10 + (b + 208) % 256) % 18446744073709551616) acc),
          ⟨input, p + (ds.length + 1)⟩) := by
  intro ds
  induction ds with
  | nil =>
    intro acc input p t rest f hdrop _ hterm hf
    obtain ⟨f', rfl⟩ : ∃ f', f = f' + 1 := ⟨f - 1, by omega⟩
    simp only [List.nil_append] at hdrop
    unfold parseUsizeLoop
    rw [next_cons hdrop]
    dsimp only
    rw [if_pos hterm]
    simp
  | cons b ds ih =>
    intro acc input p t rest f hdrop hnb hterm hf
    obtain ⟨f', rfl⟩ : ∃ f', f = f' + 1 := ⟨f - 1, by omega⟩
    rw [List.cons_append] at hdrop
    unfold parseUsizeLoop
    rw [next_cons hdrop]
    dsimp only
    rw [if_neg (hnb b (List.mem_cons_self b ds))]
    rw [ih _ input (p + 1) t rest f' (drop_succ_of_drop hdrop)
      (fun x hx => hnb x (List.mem_cons_of_mem b hx)) hterm
      (by simp only [List.length_cons] at hf; omega)]
    simp only [List.foldl_cons, List.length_cons]
    refine congrArg _ ?_
    refine congrArg _ ?_
    omega

theorem parseUsizeLoop_noTerm :
    ∀ (bs : List Nat) (acc : Nat) (input : List Nat) (p f : Nat),
      input.drop p = bs → (∀ b ∈ bs, ¬(b = 44 ∨ b = 125)) → bs.length < f →
      parseUsizeLoop f acc ⟨input, p⟩ =
        (Except.error ParseError.endOfInput, ⟨input, p + bs.length⟩) := by
  intro bs
  induction bs with
  | nil =>
    intro acc input p f hdrop _ hf
    obtain ⟨f', rfl⟩ : ∃ f', f = f' + 1 := ⟨f - 1, by omega⟩
    unfold parseUsizeLoop
    rw [next_nil hdrop]
    simp
  | cons b bs ih =>
    intro acc input p f hdrop hnb hf
    obtain ⟨f', rfl⟩ : ∃ f', f = f' + 1 := ⟨f - 1, by omega⟩
    unfold parseUsizeLoop
    rw [next_cons hdrop]
    dsimp only
    rw [if_neg (hnb b (List.mem_cons_self b bs))]
    rw [ih _ input (p + 1) f' (drop_succ_of_drop hdrop)
      (fun x hx => hnb x (List.mem_cons_of_mem b hx))
      (by simp only [List.length_cons] at hf; omega)]
    simp only [List.length_cons]
    refine congrArg _ ?_
    refine congrArg _ ?_
    omega

theorem wrapFold_digits :
    ∀ (ds : List Nat) (acc : Nat), (∀ b ∈ ds, 48 ≤ b ∧ b ≤ 57) →
      ds.foldl (fun a b => (a * 10 + (b + 208) % 256) % 18446744073709551616) (acc % 18446744073709551616) =
        (ds.foldl (fun a b => a * 10 + (b - 48)) acc) % 18446744073709551616 := by
  intro ds
  induction ds with
  | nil => intro acc _; rfl
  | cons b ds ih =>
    intro acc hdig
    have hb := hdig b (List.mem_cons_self b ds)
    simp only [List.foldl_cons]
    have h1 : (b + 208) % 256 = b - 48 := by omega
    have h2 : (acc % 18446744073709551616 * 10 + (b - 48)) % 18446744073709551616 =
        (acc * 10 + (b - 48)) % 18446744073709551616 :=
      ((Nat.mod_modEq acc 18446744073709551616).mul_right 10).add_right (b - 48)
    rw [h1, h2]
    exact ih _ (fun x hx => hdig x (List.mem_cons_of_mem b hx))

/-- C8 counterexample: a field of twenty `9` digits followed by `,` makes
the `usize` accumulator wrap: `parse_usize` returns
`99999999999999999999 % 2 ^ 64 = 7766279631452241919`, not the decimal value
of the digits. -/
theorem parse_usize_overflow_counterexample :
    (Parser.parse_usize 30 ⟨List.replicate 20 57 ++ [44], 0⟩).1 =
      Except.ok 7766279631452241919 ∧
    (7766279631452241919 : Nat) ≠ 99999999999999999999 :=
  ⟨rfl, by decide⟩

/-- C8 (amended): for a field of decimal digit bytes followed by `,`/`}`,
`parse_usize` returns the decimal value of the digits reduced modulo
`2 ^ 64` (`usize` wrap-around), consuming the terminator from the cursor
without folding it into the value (an empty field gives 0); no byte before
the terminator is rejected (any terminator-free byte list still yields
`Ok`); and when no terminator remains in the window it fails with
EndOfInput only. -/
theorem parse_usize_amended :
    (∀ (input : List Nat) (p : Nat) (ds : List Nat) (t : Nat) (rest : List Nat) (f : Nat),
      input.drop p = ds ++ t :: rest → (∀ b ∈ ds, 48 ≤ b ∧ b ≤ 57) →
      (t = 44 ∨ t = 125) → ds.length < f →
      Parser.parse_usize f ⟨input, p⟩ =
        (Except.ok (foldDigits ds % 18446744073709551616), ⟨input, p + (ds.length + 1)⟩)) ∧
    (∀ (input : List Nat) (p : Nat) (bs : List Nat) (t : Nat) (rest : List Nat) (f : Nat),
      input.drop p = bs ++ t :: rest → (∀ b ∈ bs, ¬(b = 44 ∨ b = 125)) →
      (t = 44 ∨ t = 125) → bs.length < f →
      ∃ n, Parser.parse_usize f ⟨input, p⟩ = (Except.ok n, ⟨input, p + (bs.length + 1)⟩)) ∧
    (∀ (input : List Nat) (p : Nat) (bs : List Nat) (f : Nat),
      input.drop p = bs → (∀ b ∈ bs, ¬(b = 44 ∨ b = 125)) → bs.length < f →
      Parser.parse_usize f ⟨input, p⟩ =
        (Except.error ParseError.endOfInput, ⟨input, p + bs.length⟩)) := by
  refine ⟨?_, ?_, ?_⟩
  · intro input p ds t rest f hdrop hdig hterm hf
    unfold Parser.parse_usize
    rw [parseUsizeLoop_run ds 0 input p t rest f hdrop
      (fun b hb => by have := hdig b hb; omega) hterm hf]
    have h0 : (0 : Nat) = 0 % 18446744073709551616 := rfl
    rw [h0, wrapFold_digits ds 0 hdig]
    rfl
  · intro input p bs t rest f hdrop hnb hterm hf
    refine ⟨bs.foldl
      (fun a b => (a * 10 + (b + 208) % 256) % 18446744073709551616) 0, ?_⟩
    unfold Parser.parse_usize
    rw [parseUsizeLoop_run bs 0 input p t rest f hdrop hnb hterm hf]
  · intro input p bs f hdrop hnb hf
    exact parseUsizeLoop_noTerm bs 0 input p f hdrop hnb hf

/-- Witness for C8: the field `12,` decodes to 12 with the comma consumed
(cursor at 3), and the terminator-less window `15` fails with EndOfInput. -/
theorem parse_usize_amended_witness :
    Parser.parse_usize 5 ⟨[49, 50, 44], 0⟩ = (Except.ok 12, ⟨[49, 50, 44], 3⟩) ∧
    Parser.parse_usize 5 ⟨[49, 53], 0⟩ =
      (Except.error ParseError.endOfInput, ⟨[49, 53], 2⟩) := by
  have h1 := parse_usize_amended.1 [49, 50, 44] 0 [49, 50] 44 [] 5 rfl
    (by decide) (Or.inl rfl) (by decide)
  have h3 := parse_usize_amended.2.2 [49, 53] 0 [49, 53] 5 rfl (by decide) (by decide)
  exact ⟨h1.trans rfl, h3.trans rfl⟩

theorem getD_drop (l : List Nat) (p k : Nat) :
    (l.drop p).getD k 0 = l.getD (p + k) 0 := by
  rw [List.getD_eq_getElem?_getD, List.getD_eq_getElem?_getD, List.getElem?_drop]

theorem scanIdx_some {pred : Nat → Bool} :
    ∀ {l : List Nat} {k : Nat}, scanIdx pred l = some k →
      k < l.length ∧ pred (l.getD k 0) = true := by
  intro l
  induction l with
  | nil => intro k h; simp [scanIdx] at h
  | cons b t ih =>
    intro k h
    unfold scanIdx at h
    by_cases hb : pred b
    · rw [if_pos hb] at h
      injection h with h'
      subst h'
      exact ⟨by simp, by simpa using hb⟩
    · rw [if_neg hb] at h
      cases hs : scanIdx pred t with
      | none => rw [hs] at h; simp at h
      | some j =>
        rw [hs] at h
        simp only [Option.map_some, Option.map_some'] at h
        injection h with h'
        subst h'
        obtain ⟨h1, h2⟩ := ih hs
        exact ⟨by simp only [List.length_cons]; omega,
          by rw [List.getD_cons_succ]; exact h2⟩

theorem scanIdx_first {pred : Nat → Bool} :
    ∀ {l : List Nat} {k : Nat}, scanIdx pred l = some k →
      ∀ j, j < k → pred (l.getD j 0) = false := by
  intro l
  induction l with
  | nil => intro k h; simp [scanIdx] at h
  | cons b t ih =>
    intro k h j hj
    unfold scanIdx at h
    by_cases hb : pred b
    · rw [if_pos hb] at h
      injection h with h'
      omega
    · rw [if_neg hb] at h
      cases hs : scanIdx pred t with
      | none => rw [hs] at h; simp at h
      | some m =>
        rw [hs] at h
        simp only [Option.map_some, Option.map_some'] at h
        injection h with h'
        subst h'
        cases j with
        | zero => rw [List.getD_cons_zero]; exact Bool.eq_false_iff.mpr hb
        | succ j' =>
          rw [List.getD_cons_succ]
          exact ih hs j' (by omega)

theorem next_ok {s s' : Parser} {c : Nat} (h : Parser.next s = (Except.ok c, s')) :
    s'.input = s.input ∧ s'.pos = s.pos + 1 ∧ s.pos < s.input.length ∧
    s.input.getD s.pos 0 = c := by
  unfold Parser.next at h
  by_cases hp : s.pos < s.input.length
  · rw [if_pos hp] at h
    injection h with h1 h2
    injection h1 with h1
    subst h2
    exact ⟨rfl, rfl, hp, h1⟩
  · rw [if_neg hp] at h
    simp at h

theorem skipTo_ok {s : Parser} {ch : Nat} {u : Unit} {s' : Parser}
    (h : Parser.skipTo s ch = (Except.ok u, s')) :
    s'.input = s.input ∧ s.pos < s'.pos ∧ s'.pos ≤ s.input.length ∧
    s.input.getD (s'.pos - 1) 0 = ch := by
  unfold Parser.skipTo at h
  cases hs : scanIdx (fun b => b == ch) (s.input.drop s.pos) with
  | none => rw [hs] at h; simp at h
  | some k =>
    rw [hs] at h
    obtain ⟨hk, hpk⟩ := scanIdx_some hs
    rw [List.length_drop] at hk
    rw [getD_drop] at hpk
    injection h with h1 h2
    subst h2
    refine ⟨rfl, by dsimp only; omega, by dsimp only; omega, ?_⟩
    dsimp only
    have he : s.pos + k + 1 - 1 = s.pos + k := by omega
    rw [he]
    exact beq_iff_eq.mp hpk

theorem skipTo_min {s : Parser} {ch : Nat} {u : Unit} {s' : Parser}
    (h : Parser.skipTo s ch = (Except.ok u, s')) :
    ∀ j, s.pos ≤ j → j < s'.pos - 1 → s.input.getD j 0 ≠ ch := by
  unfold Parser.skipTo at h
  cases hs : scanIdx (fun b => b == ch) (s.input.drop s.pos) with
  | none => rw [hs] at h; simp at h
  | some k =>
    rw [hs] at h
    injection h with h1 h2
    subst h2
    intro j hj1 hj2 heq
    dsimp only at hj2
    have hf := scanIdx_first hs (j - s.pos) (by omega)
    rw [getD_drop] at hf
    have he : s.pos + (j - s.pos) = j := by omega
    rw [he, heq] at hf
    simp at hf

theorem peek_ok {s s' : Parser} {c : Nat} (h : Parser.peek s = (Except.ok c, s')) :
    s' = s ∧ s.pos < s.input.length ∧ s.input.getD s.pos 0 = c := by
  unfold Parser.peek at h
  by_cases hp : s.pos < s.input.length
  · rw [if_pos hp] at h
    injection h with h1 h2
    injection h1 with h1
    exact ⟨h2.symm, hp, h1⟩
  · rw [if_neg hp] at h
    simp at h

theorem current_ok {s s' : Parser} {b : Nat} (h : Parser.current s = (Except.ok b, s')) :
    s' = s ∧ 0 < s.pos ∧ s.input.getD (s.pos - 1) 0 = b := by
  unfold Parser.current at h
  by_cases hp : s.pos = 0
  · rw [if_pos hp] at h
    simp at h
  · rw [if_neg hp] at h
    injection h with h1 h2
    injection h1 with h1
    exact ⟨h2.symm, by omega, h1⟩

theorem skip_ok_eq {s : Parser} {n : Nat} {u : Unit} {s' : Parser}
    (h : Parser.skip s n = (Except.ok u, s')) : s' = ⟨s.input, s.pos + n⟩ := by
  unfold Parser.skip at h
  by_cases hp : s.pos + n ≤ s.input.length
  · rw [if_pos hp] at h
    injection h with h1 h2
    exact h2.symm
  · rw [if_neg hp] at h
    simp at h

theorem skipTo2_ok {s : Parser} {c1 c2 : Nat} {u : Unit} {s' : Parser}
    (h : Parser.skipTo2 s c1 c2 = (Except.ok u, s')) :
    s'.input = s.input ∧ s.pos < s'.pos := by
  unfold Parser.skipTo2 at h
  cases hs : scanIdx (fun b => b == c1 || b == c2) (s.input.drop s.pos) with
  | none => rw [hs] at h; simp at h
  | some k =>
    rw [hs] at h
    injection h with h1 h2
    subst h2
    exact ⟨rfl, by dsimp only; omega⟩

theorem parse_raw_ok {s : Parser} {raw : List Nat} {s' : Parser}
    (h : Parser.parse_raw s = (Except.ok raw, s')) :
    s'.input = s.input ∧ s.pos < s'.pos := by
  unfold Parser.parse_raw at h
  cases ht : Parser.skipTo2 s 44 125 with
  | mk r t =>
  cases r with
  | error e => rw [ht] at h; simp at h
  | ok u =>
    rw [ht] at h
    dsimp only at h
    injection h with h1 h2
    subst h2
    exact skipTo2_ok ht

theorem seekBrace_ok {s : Parser} {u : Unit} {s' : Parser}
    (h : seekBrace s = (Except.ok u, s')) :
    s'.input = s.input ∧ s.pos < s'.pos ∧ s'.pos ≤ s.input.length ∧
    s.input.getD (s'.pos - 1) 0 = 123 ∧
    (∀ j, s.pos ≤ j → j < s'.pos - 1 → s.input.getD j 0 ≠ 123) := by
  unfold seekBrace at h
  cases hs : scanIdx (fun b => b == 123) (s.input.drop s.pos) with
  | none => rw [hs] at h; simp at h
  | some k =>
    rw [hs] at h
    injection h with h1 h2
    subst h2
    obtain ⟨hk, hpk⟩ := scanIdx_some hs
    rw [List.length_drop] at hk
    rw [getD_drop] at hpk
    refine ⟨rfl, by dsimp only; omega, by dsimp only; omega, ?_, ?_⟩
    · dsimp only
      have he : s.pos + k + 1 - 1 = s.pos + k := by omega
      rw [he]
      exact beq_iff_eq.mp hpk
    · intro j hj1 hj2 heq
      dsimp only at hj2
      have hf := scanIdx_first hs (j - s.pos) (by omega)
      rw [getD_drop] at hf
      have he : s.pos + (j - s.pos) = j := by omega
      rw [he, heq] at hf
      simp at hf

theorem parseStrLoop_progress :
    ∀ (f : Nat) (flag : Bool) (s : Parser) (flag' : Bool) (s' : Parser),
      parseStrLoop f flag s = (Except.ok flag', s') →
      s'.input = s.input ∧ s.pos + 2 ≤ s'.pos ∧ s'.pos ≤ s.input.length := by
  intro f
  induction f with
  | zero => intro flag s flag' s' h; simp [parseStrLoop] at h
  | succ f ih =>
    intro flag s flag' s' h
    unfold parseStrLoop at h
    cases h1 : Parser.skipTo s 34 with
    | mk r1 s1 =>
    cases r1 with
    | error e => rw [h1] at h; simp at h
    | ok u =>
      rw [h1] at h
      dsimp only at h
      obtain ⟨hi1, hp1, hl1, _⟩ := skipTo_ok h1
      cases h2 : s1.next with
      | mk r2 s2 =>
      cases r2 with
      | error e => rw [h2] at h; simp at h
      | ok c =>
        rw [h2] at h
        dsimp only at h
        obtain ⟨hi2, hp2, hl2, _⟩ := next_ok h2
        by_cases hc : c = 44 ∨ c = 125
        · rw [if_pos hc] at h
          injection h with ha hb
          subst hb
          rw [hi2, hi1] at *
          constructor
          · rfl
          · rw [hi1] at hl2
            omega
        · rw [if_neg hc] at h
          by_cases hc2 : c = 34
          · rw [if_pos hc2] at h
            obtain ⟨hi3, hp3, hl3⟩ := ih true s2 flag' s' h
            rw [hi3, hi2, hi1] at *
            refine ⟨rfl, by omega, by rw [← hi1]; rw [hi2, hi1] at hl3; exact hl3⟩
          · rw [if_neg hc2] at h
            obtain ⟨hi3, hp3, hl3⟩ := ih flag s2 flag' s' h
            rw [hi3, hi2, hi1] at *
            refine ⟨rfl, by omega, by rw [← hi1]; rw [hi2, hi1] at hl3; exact hl3⟩

theorem parseStrWith_ok {e : ParseError} {f : Nat} {s : Parser} {ls : LogStr} {s' : Parser}
    (h : parseStrWith e f s = (Except.ok ls, s')) :
    s'.input = s.input ∧ s.pos ≤ s'.pos := by
  unfold parseStrWith at h
  cases h1 : Parser.next s with
  | mk r1 s1 =>
  cases r1 with
  | error e1 => rw [h1] at h; simp at h
  | ok c =>
    rw [h1] at h
    dsimp only at h
    obtain ⟨hi1, hp1, _, _⟩ := next_ok h1
    by_cases hc : c = 34
    · rw [if_pos hc] at h
      cases h2 : parseStrLoop f false s1 with
      | mk r2 s2 =>
      cases r2 with
      | error e2 => rw [h2] at h; simp at h
      | ok flag =>
        rw [h2] at h
        dsimp only at h
        injection h with h3 h4
        subst h4
        obtain ⟨hi2, hp2, _⟩ := parseStrLoop_progress f false s1 flag s2 h2
        constructor
        · rw [hi2, hi1]
        · omega
    · rw [if_neg hc] at h
      simp at h

theorem hasDoubled_of_pair :
    ∀ (l : List Nat) (j : Nat), j + 1 < l.length →
      l.getD j 0 = 34 → l.getD (j + 1) 0 = 34 → hasDoubled l = true := by
  intro l
  induction l with
  | nil => intro j hj _ _; simp at hj
  | cons x t ih =>
    intro j hj h1 h2
    cases t with
    | nil => simp at hj
    | cons y t' =>
      cases j with
      | zero =>
        rw [List.getD_cons_zero] at h1
        rw [List.getD_cons_succ, List.getD_cons_zero] at h2
        subst h1 h2
        simp [hasDoubled]
      | succ j' =>
        rw [List.getD_cons_succ] at h1 h2
        have hd := ih j' (by simp only [List.length_cons] at hj ⊢; omega) h1 h2
        simp [hasDoubled, hd]

theorem getD_slice (l : List Nat) (a b j : Nat) (hj : j < b - a) :
    (slice l a b).getD j 0 = l.getD (a + j) 0 := by
  unfold slice
  rw [List.getD_eq_getElem?_getD, List.getElem?_take_of_lt hj,
    List.getElem?_drop, ← List.getD_eq_getElem?_getD]

theorem length_slice (l : List Nat) (a b : Nat) :
    (slice l a b).length = min (b - a) (l.length - a) := by
  unfold slice
  rw [List.length_take, List.length_drop]

theorem hasDoubled_slice_of_pair {l : List Nat} {a b i : Nat}
    (ha : a ≤ i) (hb : i + 1 < b) (hlen : b ≤ l.length)
    (h1 : l.getD i 0 = 34) (h2 : l.getD (i + 1) 0 = 34) :
    hasDoubled (slice l a b) = true := by
  refine hasDoubled_of_pair (slice l a b) (i - a) ?_ ?_ ?_
  · rw [length_slice]
    omega
  · rw [getD_slice l a b (i - a) (by omega)]
    have he : a + (i - a) = i := by omega
    rw [he]
    exact h1
  · rw [getD_slice l a b (i - a + 1) (by omega)]
    have he : a + (i - a + 1) = i + 1 := by omega
    rw [he]
    exact h2

theorem parseStrLoop_flag :
    ∀ (f : Nat) (flag : Bool) (s : Parser) (flag' : Bool) (s' : Parser),
      parseStrLoop f flag s = (Except.ok flag', s') → flag' = true →
      flag = true ∨ ∃ i, s.pos ≤ i ∧ i + 1 < s'.pos - 2 ∧
        s.input.getD i 0 = 34 ∧ s.input.getD (i + 1) 0 = 34 := by
  intro f
  induction f with
  | zero => intro flag s flag' s' h; simp [parseStrLoop] at h
  | succ f ih =>
    intro flag s flag' s' h hflag
    unfold parseStrLoop at h
    cases h1 : Parser.skipTo s 34 with
    | mk r1 s1 =>
    cases r1 with
    | error e => rw [h1] at h; simp at h
    | ok u =>
      rw [h1] at h
      dsimp only at h
      obtain ⟨hi1, hp1, hl1, hq1⟩ := skipTo_ok h1
      cases h2 : s1.next with
      | mk r2 s2 =>
      cases r2 with
      | error e => rw [h2] at h; simp at h
      | ok c =>
        rw [h2] at h
        dsimp only at h
        obtain ⟨hi2, hp2, hl2, hc2⟩ := next_ok h2
        by_cases hc : c = 44 ∨ c = 125
        · rw [if_pos hc] at h
          injection h with ha hb
          injection ha with ha
          left
          rw [← ha] at hflag
          exact hflag
        · rw [if_neg hc] at h
          by_cases hq : c = 34
          · rw [if_pos hq] at h
            right
            obtain ⟨hi3, hp3, _⟩ := parseStrLoop_progress f true s2 flag' s' h
            refine ⟨s1.pos - 1, by omega, by omega, hq1, ?_⟩
            have he : s1.pos - 1 + 1 = s1.pos := by omega
            rw [he]
            rw [hi1] at hc2
            rw [hc2]
            exact hq
          · rw [if_neg hq] at h
            rcases ih flag s2 flag' s' h hflag with hl | ⟨i, hi, hb, hx, hy⟩
            · exact Or.inl hl
            · right
              rw [hi2, hi1] at hx hy
              exact ⟨i, by omega, hb, hx, hy⟩

theorem parseStrWith_flag_content {e : ParseError} {f : Nat} {s s' : Parser} {ls : LogStr}
    (h : parseStrWith e f s = (Except.ok ls, s')) :
    ls.need_replace_quotes = true → hasDoubled ls.s = true := by
  intro hflag
  unfold parseStrWith at h
  cases h1 : s.next with
  | mk r1 s1 =>
  cases r1 with
  | error e1 => rw [h1] at h; simp at h
  | ok c =>
    rw [h1] at h
    dsimp only at h
    by_cases hc : c = 34
    · rw [if_pos hc] at h
      cases h2 : parseStrLoop f false s1 with
      | mk r2 s2 =>
      cases r2 with
      | error e2 => rw [h2] at h; simp at h
      | ok flag =>
        rw [h2] at h
        dsimp only at h
        injection h with ha hb
        injection ha with ha
        subst hb
        rw [← ha] at hflag
        simp only at hflag
        rcases parseStrLoop_flag f false s1 flag s2 h2 hflag with hl | ⟨i, hi, hb2, hx, hy⟩
        · simp at hl
        · obtain ⟨hi1, hp1, _, _⟩ := next_ok h1
          obtain ⟨hi3, hp3, hl3⟩ := parseStrLoop_progress f false s1 flag s2 h2
          rw [← ha]
          dsimp only
          rw [hi1] at hx hy
          rw [hi1] at hl3
          refine hasDoubled_slice_of_pair hi hb2 (by omega) hx hy
    · rw [if_neg hc] at h
      simp at h

theorem replaceQuotes_singleton (x : Nat) : replaceQuotes [x] = [x] := by
  conv_lhs => unfold replaceQuotes
  split
  · rename_i heq
    simp at heq
  · rename_i a t heq
    injection heq with h1 h2
    subst h1
    subst h2
    rfl
  · rename_i heq
    simp at heq

theorem replaceQuotes_cons2 {x y : Nat} {t : List Nat} (h : ¬(x = 34 ∧ y = 34)) :
    replaceQuotes (x :: y :: t) = x :: replaceQuotes (y :: t) := by
  conv_lhs => unfold replaceQuotes
  split
  · rename_i t2 heq
    injection heq with h1 h2
    injection h2 with h2 h3
    exact absurd ⟨h1, h2⟩ h
  · rename_i a t2 heq
    injection heq with h1 h2
    subst h1
    subst h2
    rfl
  · rename_i heq
    simp at heq

theorem replaceQuotes_id : ∀ l : List Nat, hasDoubled l = false → replaceQuotes l = l := by
  intro l
  induction l with
  | nil => intro _; rfl
  | cons x t ih =>
    intro hnd
    cases t with
    | nil => exact replaceQuotes_singleton x
    | cons y t' =>
      have hshape : hasDoubled (x :: y :: t') =
          ((x == 34 && y == 34) || hasDoubled (y :: t')) := rfl
      rw [hshape] at hnd
      rcases Bool.or_eq_false_iff.mp hnd with ⟨h1, h2⟩
      have hxy : ¬(x = 34 ∧ y = 34) := by
        intro hp
        obtain ⟨hx, hy⟩ := hp
        subst hx
        subst hy
        simp at h1
      rw [replaceQuotes_cons2 hxy, ih h2]

theorem parseStrLoop_true :
    ∀ (f : Nat) (s : Parser) (flag' : Bool) (s' : Parser),
      parseStrLoop f true s = (Except.ok flag', s') → flag' = true := by
  intro f
  induction f with
  | zero => intro s flag' s' h; simp [parseStrLoop] at h
  | succ f ih =>
    intro s flag' s' h
    unfold parseStrLoop at h
    cases h1 : Parser.skipTo s 34 with
    | mk r1 s1 =>
    cases r1 with
    | error e => rw [h1] at h; simp at h
    | ok u =>
      rw [h1] at h
      dsimp only at h
      cases h2 : s1.next with
      | mk r2 s2 =>
      cases r2 with
      | error e => rw [h2] at h; simp at h
      | ok c =>
        rw [h2] at h
        dsimp only at h
        by_cases hc : c = 44 ∨ c = 125
        · rw [if_pos hc] at h
          injection h with ha hb
          injection ha with ha
          exact ha.symm
        · rw [if_neg hc] at h
          by_cases hq : c = 34
          · rw [if_pos hq] at h
            exact ih s2 flag' s' h
          · rw [if_neg hq] at h
            exact ih s2 flag' s' h

theorem parseStrLoop_nodouble :
    ∀ (f : Nat) (fl : Bool) (s s' : Parser),
      parseStrLoop f fl s = (Except.ok false, s') →
      ∀ i, s.pos ≤ i → i + 1 < s'.pos - 2 →
        ¬(s.input.getD i 0 = 34 ∧ s.input.getD (i + 1) 0 = 34) := by
  intro f
  induction f with
  | zero => intro fl s s' h; simp [parseStrLoop] at h
  | succ f ih =>
    intro fl s s' h i hi1 hi2 hpair
    unfold parseStrLoop at h
    cases h1 : Parser.skipTo s 34 with
    | mk r1 s1 =>
    cases r1 with
    | error e => rw [h1] at h; simp at h
    | ok u =>
      rw [h1] at h
      dsimp only at h
      obtain ⟨hin1, hp1, hl1, hq1⟩ := skipTo_ok h1
      have hmin := skipTo_min h1
      cases h2 : s1.next with
      | mk r2 s2 =>
      cases r2 with
      | error e => rw [h2] at h; simp at h
      | ok c =>
        rw [h2] at h
        dsimp only at h
        obtain ⟨hin2, hp2, hl2, hc2⟩ := next_ok h2
        rw [hin1] at hc2
        by_cases hc : c = 44 ∨ c = 125
        · rw [if_pos hc] at h
          injection h with ha hb
          subst hb
          exact (hmin i hi1 (by omega)) hpair.1
        · rw [if_neg hc] at h
          by_cases hq : c = 34
          · rw [if_pos hq] at h
            have := parseStrLoop_true f s2 false s' h
            simp at this
          · rw [if_neg hq] at h
            by_cases hge : s2.pos ≤ i
            · have hs2i : s2.input = s.input := by rw [hin2, hin1]
              exact ih fl s2 s' h i hge hi2 (by rw [hs2i]; exact hpair)
            · rcases hpair with ⟨hx, hy⟩
              by_cases he1 : i = s1.pos
              · rw [he1, hc2] at hx
                exact hq hx
              · by_cases he2 : i + 1 = s1.pos
                · rw [he2, hc2] at hy
                  exact hq hy
                · exact (hmin i hi1 (by omega)) hx

theorem hasDoubled_exists :
    ∀ l : List Nat, hasDoubled l = true →
      ∃ j, j + 1 < l.length ∧ l.getD j 0 = 34 ∧ l.getD (j + 1) 0 = 34 := by
  intro l
  induction l with
  | nil => intro h; simp [hasDoubled] at h
  | cons a t ih =>
    intro h
    cases t with
    | nil => simp [hasDoubled] at h
    | cons b t' =>
      have hsh : hasDoubled (a :: b :: t') =
          ((a == 34 && b == 34) || hasDoubled (b :: t')) := rfl
      rw [hsh] at h
      rcases Bool.or_eq_true_iff.mp h with h1 | h2
      · rcases Bool.and_eq_true_iff.mp h1 with ⟨ha, hb⟩
        refine ⟨0, by simp, ?_, ?_⟩
        · rw [List.getD_cons_zero]
          exact beq_iff_eq.mp ha
        · rw [List.getD_cons_succ, List.getD_cons_zero]
          exact beq_iff_eq.mp hb
      · obtain ⟨j, hj, hx, hy⟩ := ih h2
        refine ⟨j + 1, by simp only [List.length_cons] at hj ⊢; omega, ?_, ?_⟩
        · rw [List.getD_cons_succ]
          exact hx
        · rw [List.getD_cons_succ]
          exact hy

theorem hasDoubled_false_of_no34 :
    ∀ l : List Nat, (∀ b ∈ l, b ≠ 34) → hasDoubled l = false := by
  intro l
  induction l with
  | nil => intro _; rfl
  | cons a t ih =>
    intro hn
    cases t with
    | nil => rfl
    | cons b t' =>
      have hsh : hasDoubled (a :: b :: t') =
          ((a == 34 && b == 34) || hasDoubled (b :: t')) := rfl
      rw [hsh]
      have ha : a ≠ 34 := hn a (List.mem_cons_self _ _)
      have ht := ih (fun x hx => hn x (List.mem_cons_of_mem a hx))
      simp [ha, ht]

theorem replaceQuotes_append_pair :
    ∀ (seg t : List Nat), (∀ b ∈ seg, b ≠ 34) →
      replaceQuotes (seg ++ 34 :: 34 :: t) = seg ++ 34 :: replaceQuotes t := by
  intro seg
  induction seg with
  | nil => intro t _; rfl
  | cons x seg' ih =>
    intro t hn
    have hx : x ≠ 34 := hn x (List.mem_cons_self _ _)
    have hn' : ∀ b ∈ seg', b ≠ 34 := fun b hb => hn b (List.mem_cons_of_mem x hb)
    cases seg' with
    | nil =>
      simp only [List.cons_append, List.nil_append]
      rw [replaceQuotes_cons2 (fun hp => hx hp.1)]
      rfl
    | cons y seg'' =>
      simp only [List.cons_append]
      rw [replaceQuotes_cons2 (fun hp => hx hp.1)]
      have hih := ih t hn'
      simp only [List.cons_append] at hih
      rw [hih]

/-- Quoted-field content assembled from segments joined by a separator: with
separator `[34, 34]` the shape in which doubled quotes occur in a field,
with `[34]` its unescaped form. -/
def joinQuotes (sep : List Nat) : List (List Nat) → List Nat
  | [] => []
  | [seg] => seg
  | seg :: rest => seg ++ sep ++ joinQuotes sep rest

theorem replaceQuotes_joinQuotes :
    ∀ ss : List (List Nat), (∀ seg ∈ ss, ∀ b ∈ seg, b ≠ 34) →
      replaceQuotes (joinQuotes [34, 34] ss) = joinQuotes [34] ss := by
  intro ss
  induction ss with
  | nil => intro _; rfl
  | cons seg rest ih =>
    intro hn
    cases rest with
    | nil =>
      show replaceQuotes seg = seg
      exact replaceQuotes_id seg
        (hasDoubled_false_of_no34 seg (hn seg (List.mem_cons_self _ _)))
    | cons seg2 rest' =>
      have hj1 : joinQuotes [34, 34] (seg :: seg2 :: rest') =
          seg ++ [34, 34] ++ joinQuotes [34, 34] (seg2 :: rest') := rfl
      have hj2 : joinQuotes [34] (seg :: seg2 :: rest') =
          seg ++ [34] ++ joinQuotes [34] (seg2 :: rest') := rfl
      rw [hj1, hj2, List.append_assoc, List.append_assoc]
      have hseg := hn seg (List.mem_cons_self _ _)
      have hrest : ∀ s2 ∈ seg2 :: rest', ∀ b ∈ s2, b ≠ 34 :=
        fun s2 hs2 => hn s2 (List.mem_cons_of_mem seg hs2)
      rw [show ([34, 34] : List Nat) ++ joinQuotes [34, 34] (seg2 :: rest') =
            34 :: 34 :: joinQuotes [34, 34] (seg2 :: rest') from rfl]
      rw [replaceQuotes_append_pair seg (joinQuotes [34, 34] (seg2 :: rest')) hseg]
      rw [show ([34] : List Nat) ++ joinQuotes [34] (seg2 :: rest') =
            34 :: joinQuotes [34] (seg2 :: rest') from rfl]
      rw [ih hrest]

theorem parseStrWith_doubled_flag {e : ParseError} {f : Nat} {s : Parser} {ls : LogStr}
    {s' : Parser} (h : parseStrWith e f s = (Except.ok ls, s')) :
    hasDoubled ls.s = true → ls.need_replace_quotes = true := by
  intro hd
  unfold parseStrWith at h
  cases h1 : Parser.next s with
  | mk r1 s1 =>
  cases r1 with
  | error e1 => rw [h1] at h; simp at h
  | ok c =>
    rw [h1] at h
    dsimp only at h
    by_cases hc : c = 34
    · rw [if_pos hc] at h
      cases h2 : parseStrLoop f false s1 with
      | mk r2 s2 =>
      cases r2 with
      | error e2 => rw [h2] at h; simp at h
      | ok flag =>
        rw [h2] at h
        dsimp only at h
        injection h with ha hb
        injection ha with ha
        subst hb
        cases hflag : flag with
        | true =>
          rw [← ha, hflag]
        | false =>
          exfalso
          rw [← ha] at hd
          dsimp only at hd
          obtain ⟨j, hj, hx, hy⟩ := hasDoubled_exists _ hd
          rw [length_slice] at hj
          rw [getD_slice _ _ _ _ (by omega)] at hx
          rw [getD_slice _ _ _ _ (by omega)] at hy
          obtain ⟨hin1, hp1, _, _⟩ := next_ok h1
          subst hflag
          have hassoc : s1.pos + (j + 1) = s1.pos + j + 1 := by omega
          rw [hassoc] at hy
          rw [← hin1] at hx hy
          exact parseStrLoop_nodouble f false s1 s2 h2 (s1.pos + j)
            (by omega) (by omega) ⟨hx, hy⟩
    · rw [if_neg hc] at h
      simp at h

/-- C6: quoted-string unescaping.  A successfully parsed quoted field whose
content has no doubled quote comes back with the unescape flag clear, so
`LogStr::str` returns the content bytes unchanged; a parsed field whose
content does contain a doubled quote comes back with the flag set, so
`LogStr::str` applies the quote-collapsing replacement to it; that
replacement collapses each doubled quote to a single one (on content made
of quote-free segments joined by doubled quotes it returns the segments
joined by single quotes); the field `"123""45"` decodes to the text
`123"45`; and the unescape transformation fixes any byte list without
doubled quotes (idempotence on already-unescaped text). -/
theorem logstr_unescape :
    (∀ (f : Nat) (s : Parser) (ls : LogStr) (s' : Parser),
      Parser.parse_str f s = (Except.ok ls, s') → hasDoubled ls.s = false →
      ls.str = ls.s) ∧
    (∀ (f : Nat) (s : Parser) (ls : LogStr) (s' : Parser),
      Parser.parse_str f s = (Except.ok ls, s') → hasDoubled ls.s = true →
      ls.need_replace_quotes = true ∧ ls.str = replaceQuotes ls.s) ∧
    (∀ ss : List (List Nat), (∀ seg ∈ ss, ∀ b ∈ seg, b ≠ 34) →
      replaceQuotes (joinQuotes [34, 34] ss) = joinQuotes [34] ss) ∧
    ((Parser.parse_str 30 ⟨[34, 49, 50, 51, 34, 34, 52, 53, 34, 125], 0⟩).1.map
        LogStr.str = Except.ok [49, 50, 51, 34, 52, 53]) ∧
    (∀ l : List Nat, hasDoubled l = false → replaceQuotes l = l) := by
  refine ⟨?_, ?_, replaceQuotes_joinQuotes, rfl, replaceQuotes_id⟩
  · intro f s ls s' h hnd
    have h' : parseStrWith (ParseError.fatalData 1) f s = (Except.ok ls, s') := h
    unfold LogStr.str
    cases hfl : ls.need_replace_quotes with
    | false => simp
    | true =>
      have hd := parseStrWith_flag_content h' hfl
      rw [hd] at hnd
      simp at hnd
  · intro f s ls s' h hd
    have h' : parseStrWith (ParseError.fatalData 1) f s = (Except.ok ls, s') := h
    have hflag := parseStrWith_doubled_flag h' hd
    refine ⟨hflag, ?_⟩
    unfold LogStr.str
    rw [if_pos hflag]

/-- Witness for C6: the field `"ab",` parses with the flag clear and `str`
returns the content unchanged; the field `"123""45"` parses with the flag
set and `str` applies the collapsing replacement; the replacement joins the
segments `123` and `45` on a single quote; and `12` is untouched by the
unescape transformation. -/
theorem logstr_unescape_witness :
    LogStr.str ⟨[97, 98], false⟩ = [97, 98] ∧
    LogStr.str ⟨[49, 50, 51, 34, 34, 52, 53], true⟩ =
      replaceQuotes [49, 50, 51, 34, 34, 52, 53] ∧
    replaceQuotes (joinQuotes [34, 34] [[49, 50, 51], [52, 53]]) =
      joinQuotes [34] [[49, 50, 51], [52, 53]] ∧
    replaceQuotes [49, 50] = [49, 50] := by
  have h1 := logstr_unescape.1 30 ⟨[34, 97, 98, 34, 44], 0⟩ ⟨[97, 98], false⟩
    ⟨[34, 97, 98, 34, 44], 5⟩ rfl (by decide)
  have h2 := (logstr_unescape.2.1 30 ⟨[34, 49, 50, 51, 34, 34, 52, 53, 34, 125], 0⟩
    ⟨[49, 50, 51, 34, 34, 52, 53], true⟩ ⟨[34, 49, 50, 51, 34, 34, 52, 53, 34, 125], 10⟩
    rfl (by decide)).2
  have h3 := logstr_unescape.2.2.1 [[49, 50, 51], [52, 53]] (by decide)
  have h5 := logstr_unescape.2.2.2.2 [49, 50] (by decide)
  exact ⟨h1, h2, h3, h5⟩

theorem objEpilogue_ok {e : ParseError} {s s' : Parser}
    (h : objEpilogue e s = (Except.ok (), s')) :
    s'.input = s.input ∧
    ((s'.pos = s.pos + 1 ∧
        (s.input.getD s.pos 0 = 44 ∨ s.input.getD s.pos 0 = 125)) ∨
     (s'.pos = s.pos + 3 ∧ s.input.getD s.pos 0 = 13 ∧
        (s.input.getD (s.pos + 2) 0 = 44 ∨ s.input.getD (s.pos + 2) 0 = 125))) := by
  unfold objEpilogue at h
  cases h1 : Parser.next s with
  | mk r1 s1 =>
  cases r1 with
  | error e1 => rw [h1] at h; simp at h
  | ok last =>
    rw [h1] at h
    dsimp only at h
    obtain ⟨hi1, hp1, hl1, hc1⟩ := next_ok h1
    by_cases h13 : last = 13
    · rw [if_pos h13] at h
      cases h2 : Parser.skip s1 1 with
      | mk r2 s2 =>
      cases r2 with
      | error e2 => rw [h2] at h; simp at h
      | ok u =>
        rw [h2] at h
        dsimp only at h
        have hs2 : s2 = ⟨s1.input, s1.pos + 1⟩ := skip_ok_eq h2
        subst hs2
        cases h3 : Parser.next (⟨s1.input, s1.pos + 1⟩ : Parser) with
        | mk r3 s3 =>
        cases r3 with
        | error e3 => rw [h3] at h; simp at h
        | ok last2 =>
          rw [h3] at h
          dsimp only at h
          obtain ⟨hi3, hp3, hl3, hc3⟩ := next_ok h3
          dsimp only at hi3 hp3 hl3 hc3
          by_cases hterm : last2 = 44 ∨ last2 = 125
          · rw [if_pos hterm] at h
            injection h with ha hb
            subst hb
            refine ⟨by rw [hi3]; exact hi1, Or.inr ⟨by omega, ?_, ?_⟩⟩
            · rw [hc1]
              exact h13
            · rw [hi1, hp1] at hc3
              have he : s.pos + 1 + 1 = s.pos + 2 := rfl
              rw [he] at hc3
              rw [hc3]
              exact hterm
          · rw [if_neg hterm] at h
            simp at h
    · rw [if_neg h13] at h
      by_cases hterm : last = 44 ∨ last = 125
      · rw [if_pos hterm] at h
        injection h with ha hb
        subst hb
        refine ⟨hi1, Or.inl ⟨hp1, ?_⟩⟩
        rw [hc1]
        exact hterm
      · rw [if_neg hterm] at h
        simp at h

theorem parseObjCore_ok {eStr eObj : ParseError} :
    ∀ (f : Nat) (mode : Bool) (s s' : Parser),
      parseObjCore eStr eObj f mode s = (Except.ok (), s') →
      s'.input = s.input ∧ s.pos ≤ s'.pos ∧
      (mode = false → 1 ≤ s'.pos ∧ s.input.getD (s'.pos - 1) 0 = 125) := by
  intro f
  induction f with
  | zero => intro mode s s' h; cases mode <;> simp [parseObjCore] at h
  | succ f ih =>
    intro mode s s' h
    cases mode with
    | true =>
      unfold parseObjCore at h
      cases h1 : seekBrace s with
      | mk r1 s1 =>
      cases r1 with
      | error e => rw [h1] at h; simp at h
      | ok u =>
        rw [h1] at h
        dsimp only at h
        cases h2 : parseObjCore eStr eObj f false s1 with
        | mk r2 s2 =>
        cases r2 with
        | error e => rw [h2] at h; simp at h
        | ok u2 =>
          rw [h2] at h
          dsimp only at h
          obtain ⟨hi1, hp1, _, _, _⟩ := seekBrace_ok h1
          obtain ⟨hi2, hp2, _⟩ := ih false s1 s2 h2
          obtain ⟨hi3, hdisj⟩ := objEpilogue_ok h
          refine ⟨by rw [hi3, hi2, hi1], ?_, fun hmode => absurd hmode (by simp)⟩
          rcases hdisj with ⟨hpe, _⟩ | ⟨hpe, _, _⟩ <;> omega
    | false =>
      unfold parseObjCore at h
      cases h1 : Parser.peek s with
      | mk r1 s1 =>
      cases r1 with
      | error e => rw [h1] at h; simp at h
      | ok c =>
        rw [h1] at h
        dsimp only at h
        obtain ⟨hs1, hplen, hc1⟩ := peek_ok h1
        have hseq1 : s = s1 := hs1.symm
        subst hseq1
        by_cases hc34 : c = 34
        · rw [if_pos hc34] at h
          cases h2 : parseStrWith eStr (f + 1) s with
          | mk r2 t =>
          cases r2 with
          | error e => rw [h2] at h; simp at h
          | ok lsv =>
            rw [h2] at h
            dsimp only at h
            obtain ⟨hti, htp⟩ := parseStrWith_ok h2
            cases h3 : Parser.current t with
            | mk r3 s3 =>
            cases r3 with
            | error e => rw [h3] at h; simp at h
            | ok b =>
              rw [h3] at h
              dsimp only at h
              obtain ⟨hs3, htpos, hb⟩ := current_ok h3
              have hseq3 : t = s3 := hs3.symm
              subst hseq3
              by_cases hb125 : b = 125
              · rw [if_pos hb125] at h
                injection h with ha hbq
                subst hbq
                refine ⟨hti, htp, fun _ => ⟨by omega, ?_⟩⟩
                rw [← hti, hb]
                exact hb125
              · rw [if_neg hb125] at h
                obtain ⟨hi4, hp4, h125⟩ := ih false t s' h
                obtain ⟨h1p, hgd⟩ := h125 rfl
                refine ⟨by rw [hi4, hti], by omega, fun _ => ⟨by omega, ?_⟩⟩
                rw [← hti]
                exact hgd
        · rw [if_neg hc34] at h
          by_cases hc123 : c = 123
          · rw [if_pos hc123] at h
            cases h2 : parseObjCore eStr eObj f true s with
            | mk r2 t =>
            cases r2 with
            | error e => rw [h2] at h; simp at h
            | ok u2 =>
              rw [h2] at h
              dsimp only at h
              obtain ⟨hti, htp, _⟩ := ih true s t h2
              cases h3 : Parser.current t with
              | mk r3 s3 =>
              cases r3 with
              | error e => rw [h3] at h; simp at h
              | ok b =>
                rw [h3] at h
                dsimp only at h
                obtain ⟨hs3, htpos, hb⟩ := current_ok h3
                have hseq3 : t = s3 := hs3.symm
                subst hseq3
                by_cases hb125 : b = 125
                · rw [if_pos hb125] at h
                  injection h with ha hbq
                  subst hbq
                  refine ⟨hti, htp, fun _ => ⟨by omega, ?_⟩⟩
                  rw [← hti, hb]
                  exact hb125
                · rw [if_neg hb125] at h
                  obtain ⟨hi4, hp4, h125⟩ := ih false t s' h
                  obtain ⟨h1p, hgd⟩ := h125 rfl
                  refine ⟨by rw [hi4, hti], by omega, fun _ => ⟨by omega, ?_⟩⟩
                  rw [← hti]
                  exact hgd
          · rw [if_neg hc123] at h
            by_cases hc13 : c = 13
            · rw [if_pos hc13] at h
              cases h2 : Parser.skip s 2 with
              | mk r2 t =>
              cases r2 with
              | error e => rw [h2] at h; simp at h
              | ok u2 =>
                rw [h2] at h
                dsimp only at h
                have ht2 : t = ⟨s.input, s.pos + 2⟩ := skip_ok_eq h2
                subst ht2
                cases h3 : Parser.current (⟨s.input, s.pos + 2⟩ : Parser) with
                | mk r3 s3 =>
                cases r3 with
                | error e => rw [h3] at h; simp at h
                | ok b =>
                  rw [h3] at h
                  dsimp only at h
                  obtain ⟨hs3, htpos, hb⟩ := current_ok h3
                  dsimp only at htpos hb
                  subst hs3
                  by_cases hb125 : b = 125
                  · rw [if_pos hb125] at h
                    injection h with ha hbq
                    subst hbq
                    refine ⟨rfl, by dsimp only; omega, fun _ => ⟨by dsimp only; omega, ?_⟩⟩
                    dsimp only
                    rw [hb]
                    exact hb125
                  · rw [if_neg hb125] at h
                    obtain ⟨hi4, hp4, h125⟩ := ih false ⟨s.input, s.pos + 2⟩ s' h
                    dsimp only at hi4 hp4
                    obtain ⟨h1p, hgd⟩ := h125 rfl
                    refine ⟨hi4, by omega, fun _ => ⟨by omega, ?_⟩⟩
                    exact hgd
            · rw [if_neg hc13] at h
              cases h2 : Parser.parse_raw s with
              | mk r2 t =>
              cases r2 with
              | error e => rw [h2] at h; simp at h
              | ok raw =>
                rw [h2] at h
                dsimp only at h
                obtain ⟨hti, htp⟩ := parse_raw_ok h2
                cases h3 : Parser.current t with
                | mk r3 s3 =>
                cases r3 with
                | error e => rw [h3] at h; simp at h
                | ok b =>
                  rw [h3] at h
                  dsimp only at h
                  obtain ⟨hs3, htpos, hb⟩ := current_ok h3
                  have hseq3 : t = s3 := hs3.symm
                  subst hseq3
                  by_cases hb125 : b = 125
                  · rw [if_pos hb125] at h
                    injection h with ha hbq
                    subst hbq
                    refine ⟨hti, by omega, fun _ => ⟨by omega, ?_⟩⟩
                    rw [← hti, hb]
                    exact hb125
                  · rw [if_neg hb125] at h
                    obtain ⟨hi4, hp4, h125⟩ := ih false t s' h
                    obtain ⟨h1p, hgd⟩ := h125 rfl
                    refine ⟨by rw [hi4, hti], by omega, fun _ => ⟨by omega, ?_⟩⟩
                    rw [← hti]
                    exact hgd

/-- The byte-range shape `parse_object` returns on success over window
`input` from offset `start`, the cursor ending at `endPos`: the slice runs
from the first `{` at or after `start` (everything before it skipped)
through the closing `}` at `q - 1`, plus, when a CR follows that `}`, the
two bytes before the terminator; the consumed `,`/`}` terminator at
`endPos - 1` is excluded. -/
def ObjRange (input : List Nat) (start : Nat) (sl : List Nat) (endPos : Nat) : Prop :=
  ∃ p0 q,
    start ≤ p0 ∧
    input.getD p0 0 = 123 ∧
    (∀ j, start ≤ j → j < p0 → input.getD j 0 ≠ 123) ∧
    sl = slice input p0 (endPos - 1) ∧
    p0 < q ∧
    q ≤ endPos - 1 ∧
    input.getD (q - 1) 0 = 125 ∧
    (endPos - 1 = q ∨ (endPos - 1 = q + 2 ∧ input.getD q 0 = 13)) ∧
    (input.getD (endPos - 1) 0 = 44 ∨ input.getD (endPos - 1) 0 = 125)

theorem parseObjectWith_range {eStr eObj : ParseError} {f : Nat} {s : Parser}
    {sl : List Nat} {s' : Parser}
    (h : parseObjectWith eStr eObj f s = (Except.ok sl, s')) :
    s'.input = s.input ∧ ObjRange s.input s.pos sl s'.pos := by
  unfold parseObjectWith at h
  cases h1 : seekBrace s with
  | mk r1 s1 =>
  cases r1 with
  | error e => rw [h1] at h; simp at h
  | ok u =>
    rw [h1] at h
    dsimp only at h
    cases h2 : parseObjCore eStr eObj f false s1 with
    | mk r2 s2 =>
    cases r2 with
    | error e => rw [h2] at h; simp at h
    | ok u2 =>
      rw [h2] at h
      dsimp only at h
      cases h3 : objEpilogue eObj s2 with
      | mk r3 s3 =>
      cases r3 with
      | error e => rw [h3] at h; simp at h
      | ok u3 =>
        rw [h3] at h
        dsimp only at h
        injection h with ha hb
        injection ha with ha
        subst hb
        obtain ⟨hi1, hp1, hl1, hbrace, hmin⟩ := seekBrace_ok h1
        obtain ⟨hi2, hp2, hfal⟩ := parseObjCore_ok f false s1 s2 h2
        obtain ⟨h1pos, h125⟩ := hfal rfl
        obtain ⟨hi3, hdisj⟩ := objEpilogue_ok h3
        have hin2 : s2.input = s.input := by rw [hi2, hi1]
        have hin3 : s3.input = s.input := by rw [hi3, hin2]
        refine ⟨hin3, s1.pos - 1, s2.pos, by omega, hbrace, hmin, ?_, by omega, ?_, ?_, ?_, ?_⟩
        · rw [← ha, hin3]
        · rcases hdisj with ⟨hpe, _⟩ | ⟨hpe, _, _⟩ <;> omega
        · rw [hi1] at h125
          exact h125
        · rcases hdisj with ⟨hpe, hterm⟩ | ⟨hpe, hcr, hterm⟩
          · left
            omega
          · right
            refine ⟨by omega, ?_⟩
            rw [← hin2]
            exact hcr
        · rcases hdisj with ⟨hpe, hterm⟩ | ⟨hpe, hcr, hterm⟩
          · have he : s3.pos - 1 = s2.pos := by omega
            rw [he, ← hin2]
            exact hterm
          · have he : s3.pos - 1 = s2.pos + 2 := by omega
            rw [he, ← hin2]
            exact hterm

/-- C5 (amended): on every successful parse, `parse_object` returns the
byte range from the first `{` at or after the cursor (bytes before it
skipped) through the matching `}`, plus, when a CR stands between that `}`
and the consumed `,`/`}` terminator, the CR and the byte after it (an LF in
well-formed input); the terminator itself is excluded.  In particular the
spec example `   {1,2,3,"123",{1,"N"}}, 321` yields the literal text
`{1,2,3,"123",{1,"N"}}` with the cursor just past the following comma
(offset 25), and `{1}` + CR LF + `,` yields `{1}` + CR LF. -/
theorem parse_object_range_amended :
    (∀ (f : Nat) (s : Parser) (sl : List Nat) (s' : Parser),
      Parser.parse_object f s = (Except.ok sl, s') →
      s'.input = s.input ∧ ObjRange s.input s.pos sl s'.pos) ∧
    (Parser.parse_object 40 ⟨exampleObjInput, 0⟩ =
      (Except.ok exampleObjText, ⟨exampleObjInput, 25⟩)) ∧
    (Parser.parse_object 10 ⟨[123, 49, 125, 13, 10, 44], 0⟩ =
      (Except.ok [123, 49, 125, 13, 10], ⟨[123, 49, 125, 13, 10, 44], 6⟩)) := by
  refine ⟨?_, rfl, rfl⟩
  intro f s sl s' h
  have h' : parseObjectWith (ParseError.fatalData 1) (ParseError.fatalData 2) f s =
      (Except.ok sl, s') := h
  exact parseObjectWith_range h'

/-- Witness for C5: the range shape instantiated on the CR+LF-tailed object
`{1}` + CR LF + `,`. -/
theorem parse_object_range_amended_witness :
    ObjRange [123, 49, 125, 13, 10, 44] 0 [123, 49, 125, 13, 10] 6 :=
  (parse_object_range_amended.1 10 ⟨[123, 49, 125, 13, 10, 44], 0⟩
    [123, 49, 125, 13, 10] ⟨[123, 49, 125, 13, 10, 44], 6⟩ rfl).2

/-- Sequencing of parser steps: stop at the first error, keeping the cursor
the failing step left behind (the `?` operator on `ParseResult`). -/
def pbind {α β : Type} (x : PResult α) (g : α → Parser → PResult β) : PResult β :=
  match x with
  | (Except.ok a, s') => g a s'
  | (Except.error e, s') => (Except.error e, s')

theorem pbind_ok {α β : Type} {x : PResult α} {g : α → Parser → PResult β}
    {b : β} {sf : Parser} (h : pbind x g = (Except.ok b, sf)) :
    ∃ a s', x = (Except.ok a, s') ∧ g a s' = (Except.ok b, sf) := by
  unfold pbind at h
  cases hx : x with
  | mk r s' =>
  cases r with
  | ok a => rw [hx] at h; exact ⟨a, s', rfl, h⟩
  | error e => rw [hx] at h; simp at h

/-- `TransactionStatus` from src/parser/src/events.rs. -/
inductive TransactionStatus where
  | unfinished
  | notApplicable
  | committed
  | rolledBack
deriving DecidableEq, Repr

/-- `EventLogLevel` from src/parser/src/events.rs. -/
inductive EventLogLevel where
  | error
  | information
  | note
  | warning
deriving DecidableEq, Repr

def isLeapYear (y : Nat) : Bool := decide (y % 4 = 0 ∧ (y % 100 ≠ 0 ∨ y % 400 = 0))

def daysInMonth (y m : Nat) : Nat :=
  if m = 2 then (if isLeapYear y then 29 else 28)
  else if m = 4 ∨ m = 6 ∨ m = 9 ∨ m = 11 then 30
  else 31

/-- A timestamp as the six two-digit groups of the record. -/
structure DateTime where
  year : Nat
  month : Nat
  day : Nat
  hour : Nat
  minute : Nat
  second : Nat
deriving DecidableEq, Repr

/-- Modelled from the spec: the calendar check behind
`NaiveDate::from_ymd_opt(..).and_hms_opt(..)` (the external chrono crate,
out of scope per the spec: "parse two-digit groups into a validated
timestamp, fail if out of range"): month 1..12, day within the proleptic
Gregorian month length, hour/minute/second in range. -/
def validDateTime (d : DateTime) : Bool :=
  decide (1 ≤ d.month ∧ d.month ≤ 12 ∧ 1 ≤ d.day ∧
    d.day ≤ daysInMonth d.year d.month ∧ d.hour < 24 ∧ d.minute < 60 ∧ d.second < 60)

/-- `Event` from src/parser/src/events.rs; borrowed `&str` fields are byte
lists. -/
structure Event where
  date : DateTime
  transaction_status : TransactionStatus
  transaction_data : List Nat
  user_id : Nat
  computer_id : Nat
  application_id : Nat
  connection : Nat
  event_id : Nat
  log_level : EventLogLevel
  comment : LogStr
  metadata_id : Nat
  data : List Nat
  data_presentation : LogStr
  worker_server_id : Nat
  port_id : Nat
  sync_port_id : Nat
  session : Nat
  unknown1 : Nat
  unknown2 : List Nat
deriving DecidableEq, Repr

/-- `next2` inside `parse_datetime`: two digit bytes folded as
`(b1 - b'0') * 10 + (b2 - b'0')` with `u8` wrap-around before widening. -/
def next2 (s : Parser) : PResult Nat :=
  pbind s.next fun c1 s1 =>
  pbind s1.next fun c2 s2 =>
  (Except.ok ((c1 + 208) % 256 * 10 + (c2 + 208) % 256), s2)

/-- `parse_datetime` from src/parser/src/events.rs: six two-digit groups
(the year from two of them), one separator byte skipped, then the calendar
validity check, InvalidFormat when out of range. -/
def parse_datetime (s : Parser) : PResult DateTime :=
  pbind (next2 s) fun y1 s1 =>
  pbind (next2 s1) fun y2 s2 =>
  pbind (next2 s2) fun mo s3 =>
  pbind (next2 s3) fun d s4 =>
  pbind (next2 s4) fun h s5 =>
  pbind (next2 s5) fun mi s6 =>
  pbind (next2 s6) fun sec s7 =>
  pbind (s7.skip 1) fun _ s8 =>
  (if validDateTime ⟨y1 * 100 + y2, mo, d, h, mi, sec⟩ then
    (Except.ok ⟨y1 * 100 + y2, mo, d, h, mi, sec⟩, s8)
  else (Except.error ParseError.invalidFormat, s8))

/-- `parse_transaction_status` from src/parser/src/events.rs: one letter,
one skipped separator byte (consumed before the letter is inspected), then
the mapping `R`/`N`/`U`/`C`, InvalidFormat otherwise. -/
def parse_transaction_status (s : Parser) : PResult TransactionStatus :=
  pbind s.next fun ch s1 =>
  pbind (s1.skip 1) fun _ s2 =>
  (match ch with
   | 82 => (Except.ok TransactionStatus.rolledBack, s2)
   | 78 => (Except.ok TransactionStatus.notApplicable, s2)
   | 85 => (Except.ok TransactionStatus.unfinished, s2)
   | 67 => (Except.ok TransactionStatus.committed, s2)
   | _ => (Except.error ParseError.invalidFormat, s2))

/-- `parse_log_level` from src/parser/src/events.rs: the mapping
`E`/`I`/`N`/`W`, InvalidFormat otherwise. -/
def parse_log_level (s : Parser) : PResult EventLogLevel :=
  pbind s.next fun ch s1 =>
  pbind (s1.skip 1) fun _ s2 =>
  (match ch with
   | 69 => (Except.ok EventLogLevel.error, s2)
   | 73 => (Except.ok EventLogLevel.information, s2)
   | 78 => (Except.ok EventLogLevel.note, s2)
   | 87 => (Except.ok EventLogLevel.warning, s2)
   | _ => (Except.error ParseError.invalidFormat, s2))

/-- `parse_record` from src/parser/src/events.rs: seek `{`, then the fixed
19-field schema in order.  The field primitives are the
`ParseResult`-returning revision (`_r`), the one events.rs imports. -/
def parse_record (f : Nat) (s : Parser) : PResult Event :=
  pbind (seekBrace s) fun _ s0 =>
  pbind (parse_datetime s0) fun date s1 =>
  pbind (parse_transaction_status s1) fun ts s2 =>
  pbind (Parser.parse_object_r f s2) fun td s3 =>
  pbind (Parser.parse_usize f s3) fun uid s4 =>
  pbind (Parser.parse_usize f s4) fun cid s5 =>
  pbind (Parser.parse_usize f s5) fun aid s6 =>
  pbind (Parser.parse_usize f s6) fun conn s7 =>
  pbind (Parser.parse_usize f s7) fun eid s8 =>
  pbind (parse_log_level s8) fun ll s9 =>
  pbind (Parser.parse_str_r f s9) fun comment s10 =>
  pbind (Parser.parse_usize f s10) fun mid s11 =>
  pbind (Parser.parse_object_r f s11) fun dat s12 =>
  pbind (Parser.parse_str_r f s12) fun dp s13 =>
  pbind (Parser.parse_usize f s13) fun wsid s14 =>
  pbind (Parser.parse_usize f s14) fun pid s15 =>
  pbind (Parser.parse_usize f s15) fun spid s16 =>
  pbind (Parser.parse_usize f s16) fun sess s17 =>
  pbind (Parser.parse_usize f s17) fun u1 s18 =>
  pbind (Parser.parse_object_r f s18) fun u2 s19 =>
  (Except.ok ⟨date, ts, td, uid, cid, aid, conn, eid, ll, comment, mid, dat, dp,
    wsid, pid, spid, sess, u1, u2⟩, s19)

/-- `parse_record` with the always-sufficient fuel for its window. -/
def parseRecordFull (s : Parser) : PResult Event :=
  parse_record (s.input.length + 1) s

/-- Loop of `parse_buffer` from src/parser/src/events.rs, collecting the
events handed to the callback: record the position before each record
parse; on success emit the event and continue; on EndOfInput return the
recorded position; on InvalidFormat scan to the next CR and resume, or
return the recorded position when no CR remains. -/
def parseBufferLoop (input : List Nat) : Nat → Nat → List Event × Nat
  | 0, pos => ([], pos)
  | f + 1, pos =>
    match parseRecordFull ⟨input, pos⟩ with
    | (Except.ok e, s') =>
      let r := parseBufferLoop input f s'.pos
      (e :: r.1, r.2)
    | (Except.error ParseError.invalidFormat, s') =>
      match s'.skipTo 13 with
      | (Except.ok _, s2) => parseBufferLoop input f s2.pos
      | (Except.error _, _) => ([], pos)
    | (Except.error _, _) => ([], pos)

/-- `parse_buffer` from src/parser/src/events.rs over one window. -/
def parse_buffer (input : List Nat) : List Event × Nat :=
  parseBufferLoop input (input.length + 2) 0

/-- One `reader.read(&mut buffer[offset..])`: the byte source is a list of
chunks (prescribed read boundaries); a read returns the next chunk, clipped
to the free space of the buffer. -/
def readUpTo (space : Nat) (chunks : List (List Nat)) : List Nat × List (List Nat) :=
  match chunks with
  | [] => ([], [])
  | c :: rest =>
    if c.length ≤ space then (c, rest) else (c.take space, c.drop space :: rest)

/-- Loop of `parse_file` from src/parser/src/events.rs over capacity `cap`,
carried leftover bytes, and the remaining chunks: read into the free space,
stop on a zero-byte read, decode the window; on zero progress double the
buffer — keeping, as the code does, only the first `offset` bytes for the
next round (`offset` is not advanced in that branch, so the freshly read
tail of the window is overwritten by the next read); otherwise slide the
unconsumed tail to the front. -/
def parseFileLoop : Nat → Nat → List Nat → List (List Nat) → List Event
  | 0, _, _, _ => []
  | f + 1, cap, leftover, chunks =>
    let rd := readUpTo (cap - leftover.length) chunks
    if rd.1.isEmpty then []
    else
      let window := leftover ++ rd.1
      let pb := parse_buffer window
      if pb.2 = 0 then pb.1 ++ parseFileLoop f (cap * 2) leftover rd.2
      else pb.1 ++ parseFileLoop f cap (window.drop pb.2) rd.2

def totalLen (chunks : List (List Nat)) : Nat := (chunks.map List.length).sum

/-- `parse_file` from src/parser/src/events.rs: initial buffer capacity
`512 * 1024`, no leftover, fuel covering every read. -/
def parse_file (chunks : List (List Nat)) : List Event :=
  parseFileLoop (totalLen chunks + chunks.length + 1) 524288 [] chunks

/-- C9: single-letter code decoding.  With the letter and its separator in
the window, transaction status maps `U`/`N`/`C`/`R` and log level maps
`E`/`I`/`N`/`W` to their enum values, any other letter fails with
InvalidFormat, and in every case exactly one byte after the letter is
consumed (the cursor ends two past the letter). -/
theorem single_letter_codes :
    ∀ (s : Parser) (c d : Nat) (rest : List Nat), s.input.drop s.pos = c :: d :: rest →
      parse_transaction_status s =
        ((if c = 85 then Except.ok TransactionStatus.unfinished
          else if c = 78 then Except.ok TransactionStatus.notApplicable
          else if c = 67 then Except.ok TransactionStatus.committed
          else if c = 82 then Except.ok TransactionStatus.rolledBack
          else Except.error ParseError.invalidFormat), ⟨s.input, s.pos + 2⟩) ∧
      parse_log_level s =
        ((if c = 69 then Except.ok EventLogLevel.error
          else if c = 73 then Except.ok EventLogLevel.information
          else if c = 78 then Except.ok EventLogLevel.note
          else if c = 87 then Except.ok EventLogLevel.warning
          else Except.error ParseError.invalidFormat), ⟨s.input, s.pos + 2⟩) := by
  intro s c d rest hdrop
  have hnext : Parser.next s = (Except.ok c, ⟨s.input, s.pos + 1⟩) := next_cons hdrop
  have hskip : Parser.skip ⟨s.input, s.pos + 1⟩ 1 = (Except.ok (), ⟨s.input, s.pos + 2⟩) := by
    have h2 := congrArg List.length hdrop
    rw [List.length_drop] at h2
    simp only [List.length_cons] at h2
    unfold Parser.skip
    rw [if_pos (by dsimp only; omega)]
  constructor
  · unfold parse_transaction_status
    rw [hnext]
    dsimp only [pbind]
    rw [hskip]
    dsimp only
    split
    · simp
    · simp
    · simp
    · simp
    · rename_i h82 h78 h85 h67
      rw [if_neg h85, if_neg h78, if_neg h67, if_neg h82]
  · unfold parse_log_level
    rw [hnext]
    dsimp only [pbind]
    rw [hskip]
    dsimp only
    split
    · simp
    · simp
    · simp
    · simp
    · rename_i h69 h73 h78 h87
      rw [if_neg h69, if_neg h73, if_neg h78, if_neg h87]

/-- Witness for C9: `N` + separator decodes to NotApplicable as a
transaction status and `W` + separator to Warning as a log level, each
consuming two bytes. -/
theorem single_letter_codes_witness :
    parse_transaction_status ⟨[78, 44], 0⟩ =
      (Except.ok TransactionStatus.notApplicable, ⟨[78, 44], 2⟩) ∧
    parse_log_level ⟨[87, 44], 0⟩ =
      (Except.ok EventLogLevel.warning, ⟨[87, 44], 2⟩) := by
  have h1 := (single_letter_codes ⟨[78, 44], 0⟩ 78 44 [] rfl).1
  have h2 := (single_letter_codes ⟨[87, 44], 0⟩ 87 44 [] rfl).2
  exact ⟨h1.trans rfl, h2.trans rfl⟩

/-- A well-formed 62-byte event record:
`{20221212000000,N,{0},1,1,1,1,1,I,"c",1,{0},"p",1,1,1,1,1,{0}}`. -/
def recA : List Nat :=
  [123, 50, 48, 50, 50, 49, 50, 49, 50, 48, 48, 48, 48, 48, 48, 44, 78, 44, 123,
   48, 125, 44, 49, 44, 49, 44, 49, 44, 49, 44, 49, 44, 73, 44, 34, 99, 34, 44,
   49, 44, 123, 48, 125, 44, 34, 112, 34, 44, 49, 44, 49, 44, 49, 44, 49, 44,
   49, 44, 123, 48, 125, 125]

/-- The event `recA` decodes to. -/
def evA : Event :=
  ⟨⟨2022, 12, 12, 0, 0, 0⟩, TransactionStatus.notApplicable, [123, 48, 125],
   1, 1, 1, 1, 1, EventLogLevel.information, ⟨[99], false⟩, 1, [123, 48, 125],
   ⟨[112], false⟩, 1, 1, 1, 1, 1, [123, 48, 125]⟩

/-- C3 (code-bug evidence): the single-window decode of `recA` yields
exactly its one event, and `parse_file` with its real 512 KiB buffer agrees
when the record fits the initial buffer; but running the same driver loop
with an initial capacity smaller than the record (capacity 32 for the
62-byte `recA`, the situation `parse_file` reaches when a record exceeds
512 KiB) takes the zero-progress buffer-doubling branch, which does not
advance `offset` past the already-read bytes, so the record's prefix is
overwritten by the next read and no event is ever emitted. -/
theorem parse_file_doubling_drops_data :
    parse_buffer recA = ([evA], 62) ∧
    parse_file [recA] = [evA] ∧
    parseFileLoop (totalLen [recA] + 1 + 1) 32 [] [recA] = [] :=
  ⟨rfl, rfl, rfl⟩

/-- The nil uuid `00000000-0000-0000-0000-000000000000` as text bytes
(`Uuid::default()`; uuid values are kept as their 36 text bytes). -/
def uuidDefault : List Nat :=
  List.replicate 8 48 ++ [45] ++ List.replicate 4 48 ++ [45] ++
  List.replicate 4 48 ++ [45] ++ List.replicate 4 48 ++ [45] ++ List.replicate 12 48

/-- `User` from src/parser/src/references.rs. -/
structure User where
  id : List Nat
  name : List Nat
deriving DecidableEq, Repr

/-- `User::default()`. -/
def userDefault : User := ⟨uuidDefault, []⟩

/-- `Metadata` from src/parser/src/references.rs. -/
structure Metadata where
  id : List Nat
  name : List Nat
deriving DecidableEq, Repr

/-- `Metadata::default()`. -/
def metadataDefault : Metadata := ⟨uuidDefault, []⟩

/-- `References` from src/parser/src/references.rs (default build: the
`data-separation` cargo feature is off, so there is no ninth table and tags
9 and 10 only consume their payload).  Strings are byte lists; ports are
`u32` values. -/
structure References where
  users : List User
  computers : List (List Nat)
  applications : List (List Nat)
  events : List (List Nat)
  metadata : List Metadata
  worker_servers : List (List Nat)
  ports : List Nat
  sync_ports : List Nat
deriving DecidableEq, Repr

/-- `References::default()`: eight empty tables. -/
def referencesDefault : References := ⟨[], [], [], [], [], [], [], []⟩

/-- `References::parser_record`: seek `{`, read the record type tag, and
dispatch — tags 1-8 parse a payload and insert it (via `add_ref`) into the
matching table; tags 9 and 10 (feature off), 11, 12 and 13 read and discard
their payload; any other tag is skipped.  Stored strings are the unescaped
text (`.str().to_string()`), stored ports are `as u32`.  Field primitives
are the `ParseResult`-returning revision (`_r`), the one references.rs
imports. -/
def References.parser_record (f : Nat) (refs : References) (s : Parser) :
    PResult References :=
  pbind (seekBrace s) fun _ s0 =>
  pbind (Parser.parse_usize f s0) fun tag s1 =>
  match tag with
  | 1 =>
    pbind (Parser.parse_uuid s1) fun id s2 =>
    pbind (Parser.parse_str_r f s2) fun name s3 =>
    pbind (Parser.parse_usize f s3) fun num s4 =>
    (Except.ok {refs with users := add_ref userDefault refs.users ⟨id, name.str⟩ num}, s4)
  | 2 =>
    pbind (Parser.parse_str_r f s1) fun name s2 =>
    pbind (Parser.parse_usize f s2) fun num s3 =>
    (Except.ok {refs with computers := add_ref [] refs.computers name.str num}, s3)
  | 3 =>
    pbind (Parser.parse_str_r f s1) fun name s2 =>
    pbind (Parser.parse_usize f s2) fun num s3 =>
    (Except.ok {refs with applications := add_ref [] refs.applications name.str num}, s3)
  | 4 =>
    pbind (Parser.parse_str_r f s1) fun name s2 =>
    pbind (Parser.parse_usize f s2) fun num s3 =>
    (Except.ok {refs with events := add_ref [] refs.events name.str num}, s3)
  | 5 =>
    pbind (Parser.parse_uuid s1) fun id s2 =>
    pbind (Parser.parse_str_r f s2) fun name s3 =>
    pbind (Parser.parse_usize f s3) fun num s4 =>
    (Except.ok {refs with metadata := add_ref metadataDefault refs.metadata ⟨id, name.str⟩ num}, s4)
  | 6 =>
    pbind (Parser.parse_str_r f s1) fun name s2 =>
    pbind (Parser.parse_usize f s2) fun num s3 =>
    (Except.ok {refs with worker_servers := add_ref [] refs.worker_servers name.str num}, s3)
  | 7 =>
    pbind (Parser.parse_usize f s1) fun port s2 =>
    pbind (Parser.parse_usize f s2) fun num s3 =>
    (Except.ok {refs with ports := add_ref 0 refs.ports (port % 4294967296) num}, s3)
  | 8 =>
    pbind (Parser.parse_usize f s1) fun port s2 =>
    pbind (Parser.parse_usize f s2) fun num s3 =>
    (Except.ok {refs with sync_ports := add_ref 0 refs.sync_ports (port % 4294967296) num}, s3)
  | 9 =>
    pbind (Parser.parse_uuid s1) fun _ s2 =>
    pbind (Parser.parse_str_r f s2) fun _ s3 =>
    pbind (Parser.parse_usize f s3) fun _ s4 =>
    (Except.ok refs, s4)
  | 10 =>
    pbind (Parser.parse_object_r f s1) fun _ s2 =>
    pbind (Parser.parse_usize f s2) fun _ s3 =>
    pbind (Parser.parse_usize f s3) fun _ s4 =>
    (Except.ok refs, s4)
  | 11 =>
    pbind (Parser.parse_object_r f s1) fun _ s2 =>
    pbind (Parser.parse_usize f s2) fun _ s3 =>
    (Except.ok refs, s3)
  | 12 =>
    pbind (Parser.parse_object_r f s1) fun _ s2 =>
    pbind (Parser.parse_usize f s2) fun _ s3 =>
    (Except.ok refs, s3)
  | 13 =>
    pbind (Parser.parse_usize f s1) fun _ s2 =>
    pbind (Parser.parse_usize f s2) fun _ s3 =>
    (Except.ok refs, s3)
  | _ => (Except.ok refs, s1)

/-- Length of the `i`-th table of `References`, in the declaration order
users, computers, applications, events, metadata, worker_servers, ports,
sync_ports. -/
def tableLen (i : Fin 8) (r : References) : Nat :=
  [r.users.length, r.computers.length, r.applications.length, r.events.length,
   r.metadata.length, r.worker_servers.length, r.ports.length,
   r.sync_ports.length].getD i.val 0

/-- The `i`-th tables of `a` and `b` are equal. -/
def tableEq (i : Fin 8) (a b : References) : Prop :=
  [a.users = b.users, a.computers = b.computers, a.applications = b.applications,
   a.events = b.events, a.metadata = b.metadata,
   a.worker_servers = b.worker_servers, a.ports = b.ports,
   a.sync_ports = b.sync_ports].getD i.val True

/-- Effect analysis of one successful `parser_record` call: the tables are
unchanged, or exactly one of the eight is replaced by an `add_ref`
insertion into it. -/
theorem parser_record_shape {f : Nat} {refs : References} {s : Parser}
    {refs' : References} {s' : Parser}
    (h : References.parser_record f refs s = (Except.ok refs', s')) :
    refs' = refs ∨
    (∃ v n, refs' = {refs with users := add_ref userDefault refs.users v n}) ∨
    (∃ v n, refs' = {refs with computers := add_ref [] refs.computers v n}) ∨
    (∃ v n, refs' = {refs with applications := add_ref [] refs.applications v n}) ∨
    (∃ v n, refs' = {refs with events := add_ref [] refs.events v n}) ∨
    (∃ v n, refs' = {refs with metadata := add_ref metadataDefault refs.metadata v n}) ∨
    (∃ v n, refs' = {refs with worker_servers := add_ref [] refs.worker_servers v n}) ∨
    (∃ v n, refs' = {refs with ports := add_ref 0 refs.ports v n}) ∨
    (∃ v n, refs' = {refs with sync_ports := add_ref 0 refs.sync_ports v n}) := by
  unfold References.parser_record at h
  obtain ⟨u0, s0, _, h⟩ := pbind_ok h
  obtain ⟨tag, s1, _, h⟩ := pbind_ok h
  split at h
  · obtain ⟨id, s2, _, h⟩ := pbind_ok h
    obtain ⟨name, s3, _, h⟩ := pbind_ok h
    obtain ⟨num, s4, _, h⟩ := pbind_ok h
    injection h with h1 _
    injection h1 with h1
    exact Or.inr (Or.inl ⟨⟨id, name.str⟩, num, h1.symm⟩)
  · obtain ⟨name, s2, _, h⟩ := pbind_ok h
    obtain ⟨num, s3, _, h⟩ := pbind_ok h
    injection h with h1 _
    injection h1 with h1
    exact Or.inr (Or.inr (Or.inl ⟨name.str, num, h1.symm⟩))
  · obtain ⟨name, s2, _, h⟩ := pbind_ok h
    obtain ⟨num, s3, _, h⟩ := pbind_ok h
    injection h with h1 _
    injection h1 with h1
    exact Or.inr (Or.inr (Or.inr (Or.inl ⟨name.str, num, h1.symm⟩)))
  · obtain ⟨name, s2, _, h⟩ := pbind_ok h
    obtain ⟨num, s3, _, h⟩ := pbind_ok h
    injection h with h1 _
    injection h1 with h1
    exact Or.inr (Or.inr (Or.inr (Or.inr (Or.inl ⟨name.str, num, h1.symm⟩))))
  · obtain ⟨id, s2, _, h⟩ := pbind_ok h
    obtain ⟨name, s3, _, h⟩ := pbind_ok h
    obtain ⟨num, s4, _, h⟩ := pbind_ok h
    injection h with h1 _
    injection h1 with h1
    exact Or.inr (Or.inr (Or.inr (Or.inr (Or.inr
      (Or.inl ⟨⟨id, name.str⟩, num, h1.symm⟩)))))
  · obtain ⟨name, s2, _, h⟩ := pbind_ok h
    obtain ⟨num, s3, _, h⟩ := pbind_ok h
    injection h with h1 _
    injection h1 with h1
    exact Or.inr (Or.inr (Or.inr (Or.inr (Or.inr (Or.inr
      (Or.inl ⟨name.str, num, h1.symm⟩))))))
  · obtain ⟨port, s2, _, h⟩ := pbind_ok h
    obtain ⟨num, s3, _, h⟩ := pbind_ok h
    injection h with h1 _
    injection h1 with h1
    exact Or.inr (Or.inr (Or.inr (Or.inr (Or.inr (Or.inr (Or.inr
      (Or.inl ⟨port % 4294967296, num, h1.symm⟩)))))))
  · obtain ⟨port, s2, _, h⟩ := pbind_ok h
    obtain ⟨num, s3, _, h⟩ := pbind_ok h
    injection h with h1 _
    injection h1 with h1
    exact Or.inr (Or.inr (Or.inr (Or.inr (Or.inr (Or.inr (Or.inr
      (Or.inr ⟨port % 4294967296, num, h1.symm⟩)))))))
  · obtain ⟨x1, s2, _, h⟩ := pbind_ok h
    obtain ⟨x2, s3, _, h⟩ := pbind_ok h
    obtain ⟨x3, s4, _, h⟩ := pbind_ok h
    injection h with h1 _
    injection h1 with h1
    exact Or.inl h1.symm
  · obtain ⟨x1, s2, _, h⟩ := pbind_ok h
    obtain ⟨x2, s3, _, h⟩ := pbind_ok h
    obtain ⟨x3, s4, _, h⟩ := pbind_ok h
    injection h with h1 _
    injection h1 with h1
    exact Or.inl h1.symm
  · obtain ⟨x1, s2, _, h⟩ := pbind_ok h
    obtain ⟨x2, s3, _, h⟩ := pbind_ok h
    injection h with h1 _
    injection h1 with h1
    exact Or.inl h1.symm
  · obtain ⟨x1, s2, _, h⟩ := pbind_ok h
    obtain ⟨x2, s3, _, h⟩ := pbind_ok h
    injection h with h1 _
    injection h1 with h1
    exact Or.inl h1.symm
  · obtain ⟨x1, s2, _, h⟩ := pbind_ok h
    obtain ⟨x2, s3, _, h⟩ := pbind_ok h
    injection h with h1 _
    injection h1 with h1
    exact Or.inl h1.symm
  · injection h with h1 _
    injection h1 with h1
    exact Or.inl h1.symm

/-- One successful `parser_record` call, labeled by the insertion it
performed: `none` when no table changed, `some (i, n)` when it replaced
table `i` by an `add_ref` insertion at index `n`. -/
inductive RefStep : References → Option (Fin 8 × Nat) → References → Prop where
  | noIns {f : Nat} {refs : References} {s : Parser} {refs' : References} {s' : Parser} :
      References.parser_record f refs s = (Except.ok refs', s') → refs' = refs →
      RefStep refs none refs'
  | userIns {f : Nat} {refs : References} {s : Parser} {refs' : References} {s' : Parser}
      {v : User} {n : Nat} :
      References.parser_record f refs s = (Except.ok refs', s') →
      refs' = {refs with users := add_ref userDefault refs.users v n} →
      RefStep refs (some (0, n)) refs'
  | computerIns {f : Nat} {refs : References} {s : Parser} {refs' : References} {s' : Parser}
      {v : List Nat} {n : Nat} :
      References.parser_record f refs s = (Except.ok refs', s') →
      refs' = {refs with computers := add_ref [] refs.computers v n} →
      RefStep refs (some (1, n)) refs'
  | applicationIns {f : Nat} {refs : References} {s : Parser} {refs' : References} {s' : Parser}
      {v : List Nat} {n : Nat} :
      References.parser_record f refs s = (Except.ok refs', s') →
      refs' = {refs with applications := add_ref [] refs.applications v n} →
      RefStep refs (some (2, n)) refs'
  | eventIns {f : Nat} {refs : References} {s : Parser} {refs' : References} {s' : Parser}
      {v : List Nat} {n : Nat} :
      References.parser_record f refs s = (Except.ok refs', s') →
      refs' = {refs with events := add_ref [] refs.events v n} →
      RefStep refs (some (3, n)) refs'
  | metadataIns {f : Nat} {refs : References} {s : Parser} {refs' : References} {s' : Parser}
      {v : Metadata} {n : Nat} :
      References.parser_record f refs s = (Except.ok refs', s') →
      refs' = {refs with metadata := add_ref metadataDefault refs.metadata v n} →
      RefStep refs (some (4, n)) refs'
  | workerIns {f : Nat} {refs : References} {s : Parser} {refs' : References} {s' : Parser}
      {v : List Nat} {n : Nat} :
      References.parser_record f refs s = (Except.ok refs', s') →
      refs' = {refs with worker_servers := add_ref [] refs.worker_servers v n} →
      RefStep refs (some (5, n)) refs'
  | portIns {f : Nat} {refs : References} {s : Parser} {refs' : References} {s' : Parser}
      {v n : Nat} :
      References.parser_record f refs s = (Except.ok refs', s') →
      refs' = {refs with ports := add_ref 0 refs.ports v n} →
      RefStep refs (some (6, n)) refs'
  | syncPortIns {f : Nat} {refs : References} {s : Parser} {refs' : References} {s' : Parser}
      {v n : Nat} :
      References.parser_record f refs s = (Except.ok refs', s') →
      refs' = {refs with sync_ports := add_ref 0 refs.sync_ports v n} →
      RefStep refs (some (7, n)) refs'

/-- A sequence of dictionary records processed by `parser_record`, labeled
by the insertions performed (table index and insertion index, in order). -/
inductive RefRun : References → List (Fin 8 × Nat) → References → Prop where
  | nil {r : References} : RefRun r [] r
  | stepNone {r r1 r2 : References} {ls : List (Fin 8 × Nat)} :
      RefStep r none r1 → RefRun r1 ls r2 → RefRun r ls r2
  | stepIns {r r1 r2 : References} {ls : List (Fin 8 × Nat)} {i : Fin 8} {n : Nat} :
      RefStep r (some (i, n)) r1 → RefRun r1 ls r2 → RefRun r ((i, n) :: ls) r2

/-- Insertion indices a labeled run performed on table `i`. -/
def insFor (i : Fin 8) (ls : List (Fin 8 × Nat)) : List Nat :=
  (ls.filter (fun p => p.1 == i)).map (fun p => p.2)

/-- One past the highest of the given indices, 0 when there are none. -/
def oneMax (ns : List Nat) : Nat := ns.foldl (fun a n => max a (n + 1)) 0

theorem refStep_len {r : References} {l : Option (Fin 8 × Nat)} {r' : References}
    (h : RefStep r l r') (i : Fin 8) :
    tableLen i r' = (match l with
      | none => tableLen i r
      | some (j, n) => if i = j then max (tableLen i r) (n + 1) else tableLen i r) := by
  cases h with
  | noIns hp he => subst he; rfl
  | userIns hp he => subst he; fin_cases i <;> simp [tableLen, add_ref_length]
  | computerIns hp he => subst he; fin_cases i <;> simp [tableLen, add_ref_length]
  | applicationIns hp he => subst he; fin_cases i <;> simp [tableLen, add_ref_length]
  | eventIns hp he => subst he; fin_cases i <;> simp [tableLen, add_ref_length]
  | metadataIns hp he => subst he; fin_cases i <;> simp [tableLen, add_ref_length]
  | workerIns hp he => subst he; fin_cases i <;> simp [tableLen, add_ref_length]
  | portIns hp he => subst he; fin_cases i <;> simp [tableLen, add_ref_length]
  | syncPortIns hp he => subst he; fin_cases i <;> simp [tableLen, add_ref_length]

theorem insFor_cons_self (i : Fin 8) (n : Nat) (ls : List (Fin 8 × Nat)) :
    insFor i ((i, n) :: ls) = n :: insFor i ls := by
  simp [insFor]

theorem insFor_cons_ne {i j : Fin 8} (n : Nat) (ls : List (Fin 8 × Nat)) (h : j ≠ i) :
    insFor i ((j, n) :: ls) = insFor i ls := by
  have hb : (((j, n) : Fin 8 × Nat).1 == i) = false := by
    simp only [beq_eq_false_iff_ne]
    exact h
  simp [insFor, List.filter_cons, hb]

theorem refRun_len {r : References} {ls : List (Fin 8 × Nat)} {r' : References}
    (h : RefRun r ls r') (i : Fin 8) :
    tableLen i r' = (insFor i ls).foldl (fun a n => max a (n + 1)) (tableLen i r) := by
  induction h with
  | nil => simp [insFor]
  | stepNone hs _ ih =>
    have hl := refStep_len hs i
    dsimp only at hl
    rw [ih, hl]
  | stepIns hs hrun ih =>
    rename_i j n
    have hl := refStep_len hs i
    dsimp only at hl
    by_cases hij : i = j
    · subst hij
      rw [insFor_cons_self, List.foldl_cons, ih, hl, if_pos rfl]
    · rw [insFor_cons_ne n _ (fun hji => hij hji.symm), ih, hl, if_neg hij]

theorem foldl_max_ge : ∀ (ns : List Nat) (a : Nat),
    a ≤ ns.foldl (fun a n => max a (n + 1)) a := by
  intro ns
  induction ns with
  | nil => intro a; exact Nat.le_refl a
  | cons n ns ih =>
    intro a
    rw [List.foldl_cons]
    calc a ≤ max a (n + 1) := Nat.le_max_left a (n + 1)
    _ ≤ ns.foldl (fun a n => max a (n + 1)) (max a (n + 1)) := ih (max a (n + 1))

theorem foldl_max_mono : ∀ (ns : List Nat) (a b : Nat), a ≤ b →
    ns.foldl (fun a n => max a (n + 1)) a ≤ ns.foldl (fun a n => max a (n + 1)) b := by
  intro ns
  induction ns with
  | nil => intro a b hab; exact hab
  | cons n ns ih =>
    intro a b hab
    rw [List.foldl_cons, List.foldl_cons]
    exact ih _ _ (by omega)

theorem tableLen_default (i : Fin 8) : tableLen i referencesDefault = 0 := by
  fin_cases i <;> rfl

/-- C7: reference-table length invariant.  Every successful `parser_record`
call is one labeled step (its effect is covered by `RefStep`); for every
labeled run from the empty `References`, each table's length equals one past
the highest index ever inserted into it (0 when none); and along any run no
table's length ever decreases. -/
theorem references_table_length_invariant :
    (∀ (f : Nat) (refs : References) (s : Parser) (refs' : References) (s' : Parser),
      References.parser_record f refs s = (Except.ok refs', s') →
      ∃ l, RefStep refs l refs') ∧
    (∀ (ls : List (Fin 8 × Nat)) (r' : References),
      RefRun referencesDefault ls r' → ∀ i : Fin 8, tableLen i r' = oneMax (insFor i ls)) ∧
    (∀ (r : References) (ls : List (Fin 8 × Nat)) (r' : References),
      RefRun r ls r' → ∀ i : Fin 8, tableLen i r ≤ tableLen i r') := by
  refine ⟨?_, ?_, ?_⟩
  · intro f refs s refs' s' h
    rcases parser_record_shape h with he | ⟨v, n, he⟩ | ⟨v, n, he⟩ | ⟨v, n, he⟩ |
      ⟨v, n, he⟩ | ⟨v, n, he⟩ | ⟨v, n, he⟩ | ⟨v, n, he⟩ | ⟨v, n, he⟩
    · exact ⟨none, RefStep.noIns h he⟩
    · exact ⟨some (0, n), RefStep.userIns h he⟩
    · exact ⟨some (1, n), RefStep.computerIns h he⟩
    · exact ⟨some (2, n), RefStep.applicationIns h he⟩
    · exact ⟨some (3, n), RefStep.eventIns h he⟩
    · exact ⟨some (4, n), RefStep.metadataIns h he⟩
    · exact ⟨some (5, n), RefStep.workerIns h he⟩
    · exact ⟨some (6, n), RefStep.portIns h he⟩
    · exact ⟨some (7, n), RefStep.syncPortIns h he⟩
  · intro ls r' h i
    rw [refRun_len h i, tableLen_default i]
    rfl
  · intro r ls r' h i
    rw [refRun_len h i]
    exact foldl_max_ge (insFor i ls) (tableLen i r)

/-- The dictionary record ` {1,d303f30c-9e76-412f-95d2-3c3622e6b6e1,"Executor",1}`. -/
def recUser : List Nat :=
  [32, 123, 49, 44, 100, 51, 48, 51, 102, 51, 48, 99, 45, 57, 101, 55, 54, 45,
   52, 49, 50, 102, 45, 57, 53, 100, 50, 45, 51, 99, 51, 54, 50, 50, 101, 54,
   98, 54, 101, 49, 44, 34, 69, 120, 101, 99, 117, 116, 111, 114, 34, 44, 49, 125]

/-- The `Executor` user that record defines. -/
def userExec : User :=
  ⟨[100, 51, 48, 51, 102, 51, 48, 99, 45, 57, 101, 55, 54, 45, 52, 49, 50, 102,
    45, 57, 53, 100, 50, 45, 51, 99, 51, 54, 50, 50, 101, 54, 98, 54, 101, 49],
   [69, 120, 101, 99, 117, 116, 111, 114]⟩

/-- `References` after processing `recUser` from the empty state: a Users
table of length 2, the default user at index 0, `Executor` at index 1. -/
def refsU : References := ⟨[userDefault, userExec], [], [], [], [], [], [], []⟩

/-- Witness for C7: processing `recUser` from the empty `References` is the
labeled run inserting into table 0 at index 1; the theorem then gives a
Users table of length 2, an untouched Computers table of length 0, and
monotonicity. -/
theorem references_table_length_invariant_witness :
    tableLen 0 refsU = 2 ∧ tableLen 1 refsU = 0 ∧
    tableLen 0 referencesDefault ≤ tableLen 0 refsU := by
  have hstep : RefStep referencesDefault (some ((0 : Fin 8), 1)) refsU :=
    @RefStep.userIns 60 referencesDefault ⟨recUser, 0⟩ refsU ⟨recUser, 54⟩
      userExec 1 rfl rfl
  have hrun : RefRun referencesDefault [((0 : Fin 8), 1)] refsU :=
    RefRun.stepIns hstep RefRun.nil
  have h2 := references_table_length_invariant.2.1 _ _ hrun
  have h3 := references_table_length_invariant.2.2 _ _ _ hrun 0
  exact ⟨(h2 0).trans rfl, (h2 1).trans rfl, h3⟩

/-- C10: frame property of table insertion.  `add_ref` leaves every
populated index other than the inserted one unchanged, and one successful
`parser_record` call changes at most one of the eight tables. -/
theorem add_ref_frame :
    (∀ (α : Type) (d : α) (vec : List α) (v : α) (n i : Nat),
      i < vec.length → i ≠ n → (add_ref d vec v n)[i]? = vec[i]?) ∧
    (∀ (f : Nat) (refs : References) (s : Parser) (refs' : References) (s' : Parser),
      References.parser_record f refs s = (Except.ok refs', s') →
      ∃ j : Fin 8, ∀ i : Fin 8, i ≠ j → tableEq i refs' refs) := by
  constructor
  · intro α d vec v n i hi hne
    exact add_ref_getElem?_frame d vec v n i hi hne
  · intro f refs s refs' s' h
    rcases parser_record_shape h with he | ⟨v, n, he⟩ | ⟨v, n, he⟩ | ⟨v, n, he⟩ |
      ⟨v, n, he⟩ | ⟨v, n, he⟩ | ⟨v, n, he⟩ | ⟨v, n, he⟩ | ⟨v, n, he⟩
    · exact ⟨0, fun i _ => by subst he; fin_cases i <;> simp [tableEq]⟩
    · exact ⟨0, fun i hi => by subst he; fin_cases i <;> simp_all [tableEq]⟩
    · exact ⟨1, fun i hi => by subst he; fin_cases i <;> simp_all [tableEq]⟩
    · exact ⟨2, fun i hi => by subst he; fin_cases i <;> simp_all [tableEq]⟩
    · exact ⟨3, fun i hi => by subst he; fin_cases i <;> simp_all [tableEq]⟩
    · exact ⟨4, fun i hi => by subst he; fin_cases i <;> simp_all [tableEq]⟩
    · exact ⟨5, fun i hi => by subst he; fin_cases i <;> simp_all [tableEq]⟩
    · exact ⟨6, fun i hi => by subst he; fin_cases i <;> simp_all [tableEq]⟩
    · exact ⟨7, fun i hi => by subst he; fin_cases i <;> simp_all [tableEq]⟩

/-- Witness for C10: overwriting index 0 of `[5, 6]` leaves index 1 reading
6, and the `recUser` step changes no table other than Users. -/
theorem add_ref_frame_witness :
    (add_ref 0 [5, 6] 9 0)[1]? = some 6 ∧
    (∃ j : Fin 8, ∀ i : Fin 8, i ≠ j → tableEq i refsU referencesDefault) := by
  constructor
  · exact (add_ref_frame.1 Nat 0 [5, 6] 9 0 1 (by decide) (by decide)).trans rfl
  · exact add_ref_frame.2 60 referencesDefault ⟨recUser, 0⟩ refsU ⟨recUser, 54⟩ rfl

theorem parseRecordFull_at_end (buf : List Nat) (pos : Nat) (h : buf.length ≤ pos) :
    parseRecordFull ⟨buf, pos⟩ =
      (Except.error ParseError.endOfInput, ⟨buf, buf.length⟩) := by
  have hdrop : buf.drop pos = [] := List.drop_eq_nil_of_le h
  have hseek : seekBrace ⟨buf, pos⟩ =
      (Except.error ParseError.endOfInput, ⟨buf, buf.length⟩) := by
    unfold seekBrace
    dsimp only
    rw [hdrop]
    rfl
  unfold parseRecordFull parse_record
  rw [hseek]
  rfl

/-- C4: resynchronization.  Part one: when the window starts with a record
that decodes to `e1`, the decode attempt at the following position fails
with InvalidFormat, scanning from the failure point to the next CR lands at
`cr`, and the decode from `cr` yields `e2` consuming the rest of the
window, then `parse_buffer` emits exactly `[e1, e2]`, in order, with
nothing emitted for the bytes in between, and consumes the whole window.
Part two: when the bytes after the first record are garbage containing no
brace at all, the decode attempt there silently skips them as seek prefix
and yields the second record, so the decoder still emits exactly the two
well-formed records and nothing for the garbage.  Part three: when a decode
attempt at `pos` fails with InvalidFormat and no CR remains after the
failure point, the pass returns the position recorded before the failing
record with no further emission. -/
theorem parse_buffer_resync :
    (∀ (buf : List Nat) (e1 : Event) (s1 s2 : Parser) (cr : Nat) (e2 : Event)
       (s3 : Parser),
      2 ≤ buf.length →
      parseRecordFull ⟨buf, 0⟩ = (Except.ok e1, s1) →
      parseRecordFull ⟨buf, s1.pos⟩ = (Except.error ParseError.invalidFormat, s2) →
      Parser.skipTo s2 13 = (Except.ok (), ⟨buf, cr⟩) →
      parseRecordFull ⟨buf, cr⟩ = (Except.ok e2, s3) →
      s3.pos = buf.length →
      parse_buffer buf = ([e1, e2], buf.length)) ∧
    (∀ (buf : List Nat) (e1 : Event) (s1 : Parser) (e2 : Event) (s3 : Parser),
      1 ≤ buf.length →
      parseRecordFull ⟨buf, 0⟩ = (Except.ok e1, s1) →
      parseRecordFull ⟨buf, s1.pos⟩ = (Except.ok e2, s3) →
      s3.pos = buf.length →
      parse_buffer buf = ([e1, e2], buf.length)) ∧
    (∀ (buf : List Nat) (f pos : Nat) (s' : Parser),
      parseRecordFull ⟨buf, pos⟩ = (Except.error ParseError.invalidFormat, s') →
      Parser.skipTo s' 13 = (Except.error ParseError.endOfInput, s') →
      parseBufferLoop buf (f + 1) pos = ([], pos)) := by
  refine ⟨?_, ?_, ?_⟩
  · intro buf e1 s1 s2 cr e2 s3 hlen hrec1 hinv hskip hrec2 hs3
    have hend : parseRecordFull ⟨buf, buf.length⟩ =
        (Except.error ParseError.endOfInput, ⟨buf, buf.length⟩) :=
      parseRecordFull_at_end buf buf.length (Nat.le_refl _)
    have h4 : ∀ g, parseBufferLoop buf (g + 1) buf.length = ([], buf.length) := by
      intro g
      unfold parseBufferLoop
      rw [hend]
    have h3 : ∀ g, parseBufferLoop buf (g + 1 + 1) cr = ([e2], buf.length) := by
      intro g
      unfold parseBufferLoop
      rw [hrec2]
      dsimp only
      rw [hs3, h4 g]
    have h2 : ∀ g, parseBufferLoop buf (g + 2 + 1) s1.pos = ([e2], buf.length) := by
      intro g
      unfold parseBufferLoop
      rw [hinv]
      dsimp only
      rw [hskip]
      dsimp only
      exact h3 g
    have hfinal : ∀ g, parseBufferLoop buf (g + 3 + 1) 0 = ([e1, e2], buf.length) := by
      intro g
      unfold parseBufferLoop
      rw [hrec1]
      dsimp only
      have hh : parseBufferLoop buf (g + 3) s1.pos = ([e2], buf.length) := h2 g
      rw [hh]
    obtain ⟨m, hm⟩ : ∃ m, buf.length = m + 2 := ⟨buf.length - 2, by omega⟩
    show parseBufferLoop buf (buf.length + 2) 0 = ([e1, e2], buf.length)
    rw [hm] at hfinal ⊢
    exact hfinal m
  · intro buf e1 s1 e2 s3 hlen hrec1 hrec2 hs3
    have hend : parseRecordFull ⟨buf, buf.length⟩ =
        (Except.error ParseError.endOfInput, ⟨buf, buf.length⟩) :=
      parseRecordFull_at_end buf buf.length (Nat.le_refl _)
    have h4 : ∀ g, parseBufferLoop buf (g + 1) buf.length = ([], buf.length) := by
      intro g
      unfold parseBufferLoop
      rw [hend]
    have h3 : ∀ g, parseBufferLoop buf (g + 1 + 1) s1.pos = ([e2], buf.length) := by
      intro g
      unfold parseBufferLoop
      rw [hrec2]
      dsimp only
      rw [hs3, h4 g]
    have hfinal : ∀ g, parseBufferLoop buf (g + 2 + 1) 0 = ([e1, e2], buf.length) := by
      intro g
      unfold parseBufferLoop
      rw [hrec1]
      dsimp only
      have hh : parseBufferLoop buf (g + 2) s1.pos = ([e2], buf.length) := h3 g
      rw [hh]
    obtain ⟨m, hm⟩ : ∃ m, buf.length = m + 1 := ⟨buf.length - 1, by omega⟩
    show parseBufferLoop buf (buf.length + 2) 0 = ([e1, e2], buf.length)
    rw [hm] at hfinal ⊢
    exact hfinal m
  · intro buf f pos s' hinv hskip
    unfold parseBufferLoop
    rw [hinv]
    dsimp only
    rw [hskip]

/-- The garbage bytes `{` + fifteen `0`: a record start whose timestamp is
out of range (month 0), so its decode fails with InvalidFormat after the
fixed-width date. -/
def garbA : List Nat := 123 :: List.replicate 15 48

/-- Window: well-formed record, garbage, CR, well-formed record. -/
def bufR : List Nat := recA ++ garbA ++ [13] ++ recA

/-- Window: well-formed record then garbage with no CR anywhere after it. -/
def bufN : List Nat := recA ++ garbA

/-- Window: well-formed record, brace-free garbage `abc`, CR, well-formed
record. -/
def bufS : List Nat := recA ++ [97, 98, 99, 13] ++ recA

/-- Witness for C4: on `recA ++ garbage ++ CR ++ recA` the decoder emits
exactly the two well-formed records; with brace-free garbage `abc` between
the records it also emits exactly the two records (the seek skips the
garbage); on the CR-less `recA ++ garbage` the pass started at the garbage
returns its start position 62 and emits nothing. -/
theorem parse_buffer_resync_witness :
    parse_buffer bufR = ([evA, evA], 141) ∧
    parse_buffer bufS = ([evA, evA], 128) ∧
    parseBufferLoop bufN 5 62 = ([], 62) := by
  have h1 := parse_buffer_resync.1 bufR evA ⟨bufR, 62⟩ ⟨bufR, 78⟩ 79 evA ⟨bufR, 141⟩
    (by decide) rfl rfl rfl rfl rfl
  have h2 := parse_buffer_resync.2.1 bufS evA ⟨bufS, 62⟩ evA ⟨bufS, 128⟩
    (by decide) rfl rfl rfl
  have h3 := parse_buffer_resync.2.2 bufN 4 62 ⟨bufN, 78⟩ rfl rfl
  exact ⟨h1.trans rfl, h2.trans rfl, h3⟩

end EventLog
